import Mathlib

/-!
# The bloom filter of supervanitygen

A shallow embedding of `src/bloom.c` / `src/bloom.h` and of the filter code of
`src/vanitygen.c` (`initialize_bloom_filter`, `announce_result`).

* C pointers are `Option`s (`none` is `NULL`); the block a pointer addresses is a `List`.
* `uint64_t` arithmetic is arithmetic on `Nat` reduced `% 2 ^ 64` after every operation;
  `int` / `long long` values are `Int`s.
* Functions that can run into undefined behaviour (a read or write outside a block, a zero
  modulus) return an `Option`; `none` stands for undefined behaviour.
* The `double` computations of `bloom_init` (`log`, `ceil` and the casts around them) are taken
  as a parameter, `Libm`; `ieeeLibm` gives them in IEEE-754 double arithmetic (round to nearest,
  ties to even, no extended precision) for a C library `log` that stays a parameter.
* The external base58 decoder `b58tobin` is a parameter, `Decoder`.
-/

/-! ## Machine types -/

/-- The constant `CHAR_BIT` of `<limits.h>`. -/
def CHAR_BIT : Nat := 8

/-- An `unsigned char`. -/
abbrev UChar := Fin 256

/-- Storing an `int` into an `unsigned char`: reduction modulo 256. -/
def toUChar (n : Nat) : UChar := ⟨n % 256, Nat.mod_lt n (by decide)⟩

/-- Conversion of a signed integer to `uint64_t` (and to `size_t`, of the same width). -/
def toU64 (n : Int) : Nat := (n % 2 ^ 64).toNat

/-- The values of a C `double`: the finite ones, each an integer times a power of two
(`fin m e` is `m * 2 ^ e`), the two infinities and NaN. -/
inductive Double where
  | fin (m : Int) (e : Int)
  | posInf
  | negInf
  | nan
  deriving DecidableEq

/-- Whether `m1 * 2 ^ e1 ≤ m2 * 2 ^ e2`, both sides scaled to the smaller exponent. -/
def Double.finLe (m1 e1 m2 e2 : Int) : Bool :=
  decide (m1 * ((2 ^ (e1 - min e1 e2).toNat : Nat) : Int)
    ≤ m2 * ((2 ^ (e2 - min e1 e2).toNat : Nat) : Int))

/-- Whether `m1 * 2 ^ e1 < m2 * 2 ^ e2`, both sides scaled to the smaller exponent. -/
def Double.finLt (m1 e1 m2 e2 : Int) : Bool :=
  decide (m1 * ((2 ^ (e1 - min e1 e2).toNat : Nat) : Int)
    < m2 * ((2 ^ (e2 - min e1 e2).toNat : Nat) : Int))

/-- The comparison `x <= y` of two doubles (false as soon as one side is NaN). -/
def Double.le : Double → Double → Bool
  | .nan, _ => false
  | _, .nan => false
  | .negInf, _ => true
  | _, .posInf => true
  | .fin m1 e1, .fin m2 e2 => Double.finLe m1 e1 m2 e2
  | .posInf, _ => false
  | .fin _ _, .negInf => false

/-- The comparison `x >= y` of two doubles. -/
def Double.ge (x y : Double) : Bool := Double.le y x

/-- The comparison `x > y` of two doubles (false as soon as one side is NaN). -/
def Double.gt : Double → Double → Bool
  | .nan, _ => false
  | _, .nan => false
  | .negInf, _ => false
  | _, .posInf => false
  | .fin m1 e1, .fin m2 e2 => Double.finLt m2 e2 m1 e1
  | .posInf, _ => true
  | .fin _ _, .negInf => true

/-- The double written `0.0`. -/
def Double.zero : Double := .fin 0 0

/-- The double written `1.0`. -/
def Double.one : Double := .fin 1 0

/-- The double written `0.001`: the double nearest to 1/1000, `1152921504606847 / 2 ^ 60`. -/
def Double.milli : Double := .fin 1152921504606847 (-60)

/-- The double written `0.5`. -/
def Double.half : Double := .fin 1 (-1)

/-! ## The filter -/

/-- The C `struct bloom` of `bloom.h`; `bf` is the bit field, `none` when the pointer is
`NULL`, else the bytes of the allocated block. -/
structure bloom where
  entries : Int
  error : Double
  bits : Int
  bytes : Int
  hashes : Int
  bf : Option (List UChar)
  deriving DecidableEq

/-- The macro `SETBIT(bf, n)`: `bf[n / CHAR_BIT] |= 1 << (n % CHAR_BIT)`; `none` when the
byte lies outside the block. -/
def SETBIT (bf : List UChar) (n : Nat) : Option (List UChar) :=
  match bf[n / CHAR_BIT]? with
  | none => none
  | some byte => some (bf.set (n / CHAR_BIT) (toUChar (byte.val ||| (1 <<< (n % CHAR_BIT)))))

/-- The macro `GETBIT(bf, n)`: the value `bf[n / CHAR_BIT] & (1 << (n % CHAR_BIT))`; `none`
when the byte lies outside the block. -/
def GETBIT (bf : List UChar) (n : Nat) : Option Nat :=
  match bf[n / CHAR_BIT]? with
  | none => none
  | some byte => some (byte.val &&& (1 <<< (n % CHAR_BIT)))

/-! ## The two base hashes -/

/-- The body of the loop of `djb2_hash`: `hash = ((hash << 5) + hash) + c` on `uint64_t`. -/
def djb2_step (hash : Nat) (c : UChar) : Nat :=
  (((hash <<< 5) % 2 ^ 64 + hash) % 2 ^ 64 + c.val) % 2 ^ 64

/-- The loop `while (i < len) { c = str[i++]; ... }` of `djb2_hash`, with `r = len - i`
rounds left to run; `none` when it reads past the end of the buffer. -/
def djb2_loop (str : List UChar) : Nat → Nat → Nat → Option Nat
  | 0, _, hash => some hash
  | r + 1, i, hash =>
    match str[i]? with
    | none => none
    | some c => djb2_loop str r (i + 1) (djb2_step hash c)

/-- The function `djb2_hash(buffer, len)`. -/
def djb2_hash (buffer : List UChar) (len : Int) : Option Nat :=
  djb2_loop buffer len.toNat 0 5381

/-- The body of the loop of `sdbm_hash`: `hash = c + (hash << 6) + (hash << 16) - hash` on
`uint64_t`. -/
def sdbm_step (hash : Nat) (c : UChar) : Nat :=
  (((c.val + (hash <<< 6) % 2 ^ 64) % 2 ^ 64 + (hash <<< 16) % 2 ^ 64) % 2 ^ 64
    + (2 ^ 64 - hash % 2 ^ 64)) % 2 ^ 64

/-- The loop of `sdbm_hash`, with `r = len - i` rounds left to run; `none` when it reads past
the end of the buffer. -/
def sdbm_loop (str : List UChar) : Nat → Nat → Nat → Option Nat
  | 0, _, hash => some hash
  | r + 1, i, hash =>
    match str[i]? with
    | none => none
    | some c => sdbm_loop str r (i + 1) (sdbm_step hash c)

/-- The function `sdbm_hash(buffer, len)`. -/
def sdbm_hash (buffer : List UChar) (len : Int) : Option Nat :=
  sdbm_loop buffer len.toNat 0 0

/-- The function `nth_hash(n, hash_a, hash_b, filter_bits)`:
`(hash_a + (uint64_t)n * hash_b) % filter_bits`; `none` when the modulus is zero. -/
def nth_hash (n : Int) (hash_a hash_b filter_bits : Nat) : Option Nat :=
  if filter_bits = 0 then none
  else some ((hash_a + (toU64 n * hash_b) % 2 ^ 64) % 2 ^ 64 % filter_bits)

/-! ## Initialisation -/

/-- The floating-point computations of `bloom_init`, which depend on the C library:
`bitsOf entries error` is `(long long)ceil((-1.0 * entries * log(error)) / (log(2.0) * log(2.0)))`
and `hashesOf bits entries` is `(int)ceil(((double)bits / entries) * log(2.0))`. -/
structure Libm where
  bitsOf : Int → Double → Int
  hashesOf : Int → Int → Int

/-- The tail of `bloom_init` from the computation of `bytes` on: the ceiling division
`(bits + CHAR_BIT - 1) / CHAR_BIT` (C division truncates), the `calloc` of `(size_t)bytes`
zeroed bytes (which succeeds when `allocOk`) and the return value. -/
def bloom_init_alloc (allocOk : Bool) (b : bloom) : Int × Option bloom :=
  let bytes := Int.tdiv (b.bits + CHAR_BIT - 1) CHAR_BIT
  if allocOk then
    (0, some { b with bytes := bytes, bf := some (List.replicate (toU64 bytes) 0) })
  else
    (-1, some { b with bytes := bytes, bf := none })

/-- The function `bloom_init(bloom, entries, error)`: the return value and the struct
afterwards. -/
def bloom_init (fp : Libm) (allocOk : Bool) (b : Option bloom) (entries : Int)
    (error : Double) : Int × Option bloom :=
  match b with
  | none => (-1, none)
  | some s =>
    if entries ≤ 0 || Double.le error Double.zero || Double.ge error Double.one then
      if entries = 0 then
        bloom_init_alloc allocOk
          { s with
            entries := 0
            error := if Double.gt error Double.zero then error else Double.milli
            bits := 8
            bytes := 1
            hashes := 1 }
      else
        (-1, some { s with bf := none })
    else
      let bits0 := fp.bitsOf entries error
      let bits := if bits0 = 0 then 1 else bits0
      let hashes0 := fp.hashesOf bits entries
      let hashes := if hashes0 = 0 then 1 else hashes0
      bloom_init_alloc allocOk
        { s with entries := entries, error := error, bits := bits, hashes := hashes }

/-! ## Insertion and lookup -/

/-- The loop `for (i = 0; i < bloom->hashes; i++) SETBIT(...)` of `bloom_add`, with `r`
rounds left to run from index `i`. -/
def bloom_add_loop (hash_a hash_b : Nat) (bits : Int) : Nat → Int → List UChar →
    Option (List UChar)
  | 0, _, bf => some bf
  | r + 1, i, bf =>
    match nth_hash i hash_a hash_b (toU64 bits) with
    | none => none
    | some n =>
      match SETBIT bf n with
      | none => none
      | some bf1 => bloom_add_loop hash_a hash_b bits r (i + 1) bf1

/-- The function `bloom_add(bloom, buffer, len)`: the return value and the struct afterwards;
`none` for undefined behaviour. -/
def bloom_add (b : Option bloom) (buffer : Option (List UChar)) (len : Int) :
    Option (Int × Option bloom) :=
  match b, buffer with
  | some s, some buf =>
    match s.bf with
    | none => some (-1, b)
    | some bf =>
      if len ≤ 0 then some (-1, b)
      else
        match djb2_hash buf len, sdbm_hash buf len with
        | some hash_a, some hash_b =>
          match bloom_add_loop hash_a hash_b s.bits s.hashes.toNat 0 bf with
          | none => none
          | some bf1 => some (0, some { s with bf := some bf1 })
        | _, _ => none
  | _, _ => some (-1, b)

/-- The loop `for (i = 0; i < bloom->hashes; i++) if (!GETBIT(...)) return 0;` of
`bloom_check` followed by `return 1`, with `r` rounds left to run from index `i`. -/
def bloom_check_loop (hash_a hash_b : Nat) (bits : Int) (bf : List UChar) :
    Nat → Int → Option Int
  | 0, _ => some 1
  | r + 1, i =>
    match nth_hash i hash_a hash_b (toU64 bits) with
    | none => none
    | some n =>
      match GETBIT bf n with
      | none => none
      | some v => if v = 0 then some 0 else bloom_check_loop hash_a hash_b bits bf r (i + 1)

/-- The function `bloom_check(bloom, buffer, len)`: the return value and the struct
afterwards; `none` for undefined behaviour. -/
def bloom_check (b : Option bloom) (buffer : Option (List UChar)) (len : Int) :
    Option (Int × Option bloom) :=
  match b, buffer with
  | some s, some buf =>
    match s.bf with
    | none => some (-1, b)
    | some bf =>
      if len ≤ 0 then some (-1, b)
      else
        match djb2_hash buf len, sdbm_hash buf len with
        | some hash_a, some hash_b =>
          match bloom_check_loop hash_a hash_b s.bits bf s.hashes.toNat 0 with
          | none => none
          | some r => some (r, b)
        | _, _ => none
  | _, _ => some (-1, b)

/-- The function `bloom_free(bloom)`: the struct afterwards. -/
def bloom_free (b : Option bloom) : Option bloom :=
  match b with
  | none => none
  | some _ =>
    some { entries := 0, error := Double.zero, bits := 0, bytes := 0, hashes := 0, bf := none }

/-- A run of `bloom_add` calls on one filter, each call given by its buffer pointer and its
length; the struct after the last call, `none` for undefined behaviour. -/
def bloom_add_seq (b : Option bloom) : List (Option (List UChar) × Int) → Option (Option bloom)
  | [] => some b
  | call :: rest =>
    match bloom_add b call.1 call.2 with
    | none => none
    | some res => bloom_add_seq res.2 rest

/-! ## Notions used to state the properties -/

/-- Bit `j` of the bit field reads as set: `GETBIT(bf, j)` is defined and not zero. -/
def bitIsSet (bf : List UChar) (j : Nat) : Bool :=
  match GETBIT bf j with
  | some v => v != 0
  | none => false

/-- HashA as the specification words it: the left fold of `h ↦ (h * 33 + byte) mod 2^64` over
the bytes, from the seed 5381. -/
def HashA (buffer : List UChar) : Nat :=
  buffer.foldl (fun h c => (h * 33 + c.val) % 2 ^ 64) 5381

/-- HashB as the specification words it: the left fold of
`h ↦ (byte + (h << 6) + (h << 16) - h) mod 2^64` over the bytes, from the seed 0; the
subtraction is the one of the integers, reduced afterwards. -/
def HashB (buffer : List UChar) : Nat :=
  buffer.foldl
    (fun h c =>
      (((c.val : Int) + (h : Int) * 2 ^ 6 + (h : Int) * 2 ^ 16 - (h : Int)) % 2 ^ 64).toNat)
    0

/-- HashB in its closed multiplicative form: the left fold of `h ↦ (h * 65599 + byte) mod 2^64`
from the seed 0. -/
def HashB_mul (buffer : List UChar) : Nat :=
  buffer.foldl (fun h c => (h * 65599 + c.val) % 2 ^ 64) 0

/-- The bit index of round `i` with 64-bit wraparound: the sum `hash_a + i * hash_b` is reduced
modulo `2^64` before it is reduced modulo `bits`. -/
def bitIndex (hash_a hash_b bits i : Nat) : Nat := (hash_a + i * hash_b) % 2 ^ 64 % bits

/-- The bytes `buffer[0 .. len - 1]` that a call with `(buffer, len)` reads. -/
def readBytes (buffer : List UChar) (len : Int) : List UChar := buffer.take len.toNat

/-- The invariant of an initialised filter: `bits ≥ 1` (and within `long long`),
`bytes = ceil(bits / 8)`, `hashes ≥ 1`, and a bit field of exactly `bytes` bytes. -/
def bloom.wf (s : bloom) : Prop :=
  1 ≤ s.bits ∧ s.bits < 2 ^ 63 ∧ s.bytes = (s.bits + 7) / 8 ∧ 1 ≤ s.hashes ∧
    s.bf.map (fun bf => (bf.length : Int)) = some s.bytes

instance (s : bloom) : Decidable s.wf := by
  unfold bloom.wf
  infer_instance

/-- The calls of a run stay inside their buffers: a call with a buffer and a positive length
reads no more bytes than the buffer has. -/
def callsInBounds (calls : List (Option (List UChar) × Int)) : Prop :=
  ∀ call ∈ calls, ∀ buf, call.1 = some buf → call.2 ≤ (buf.length : Int)

/-- What is assumed of the C library's floating point: on a valid configuration (`entries > 0`,
`0 < error < 1`) the two ceilings are not negative and the bit count fits a `long long`. -/
def Libm.inRange (fp : Libm) : Prop :=
  ∀ (entries : Int) (error : Double), 0 < entries →
    Double.le error Double.zero = false → Double.ge error Double.one = false →
      0 ≤ fp.bitsOf entries error ∧ fp.bitsOf entries error < 2 ^ 63 ∧
        0 ≤ fp.hashesOf (if fp.bitsOf entries error = 0 then 1 else fp.bitsOf entries error)
          entries

/-- A `Libm` that answers every call with the values IEEE-754 arithmetic gives for
`entries = 1`, `error = 0.001`: `ceil(14.37...) = 15` bits and `ceil(10.39...) = 11` hashes. -/
def libmOneMilli : Libm where
  bitsOf := fun _ _ => 15
  hashesOf := fun _ _ => 11

/-- The filter `bloom_init` builds for `entries = 1`, `error = 0.001`: 15 bits in 2 zero
bytes, 11 hashes. -/
def filterOneMilli : bloom :=
  { entries := 1, error := Double.milli, bits := 15, bytes := 2, hashes := 11,
    bf := some [0, 0] }

/-- A buffer of twenty bytes `0x01`. -/
def bufOnes : List UChar := List.replicate 20 1

/-- The condition under which `bloom_add` and `bloom_check` give up: a null filter, a null bit
field, a null buffer, or a length that is not positive. -/
def badArgs (b : Option bloom) (buffer : Option (List UChar)) (len : Int) : Prop :=
  b = none ∨ (∃ s, b = some s ∧ s.bf = none) ∨ buffer = none ∨ len ≤ 0

/-- The scalar fields and the length of the bit field of `t` are those of `s`. -/
def bloom.sameShape (s t : bloom) : Prop :=
  t.entries = s.entries ∧ t.error = s.error ∧ t.bits = s.bits ∧ t.bytes = s.bytes ∧
    t.hashes = s.hashes ∧ t.bf.map List.length = s.bf.map List.length

/-- Every bit that reads as set in the bit field of `s` reads as set in the bit field of `t`. -/
def bloom.bitsKept (s t : bloom) : Prop :=
  ∀ bf, s.bf = some bf → ∃ bf1, t.bf = some bf1 ∧ ∀ j, bitIsSet bf j = true → bitIsSet bf1 j = true

/-- A `struct bloom` with static storage before any call: every field zero, no bit field. -/
def zeroBloom : bloom :=
  { entries := 0, error := Double.zero, bits := 0, bytes := 0, hashes := 0, bf := none }

/-! ## The filter in `vanitygen.c` -/

/-- The globals of `vanitygen.c` that the filter code reads or writes: the flag `keep_going`,
the flag `bloom_filter_enabled` and the struct `an_filter`. -/
structure Globals where
  keep_going : Bool
  bloom_filter_enabled : Bool
  an_filter : bloom
  deriving DecidableEq

/-- The outcome of a call `b58tobin(buffer, &buffer_size, address_str, strlen(address_str))`:
the value returned, the contents of the 32-byte buffer afterwards and the size stored in
`buffer_size`. -/
structure Decoded where
  ok : Bool
  buffer : List UChar
  size : Nat
  deriving DecidableEq

/-- The base58 decoder `b58tobin`, an external function: from the contents of the buffer
before the call and the address string, the outcome of the call. -/
abbrev Decoder := List UChar → List UChar → Decoded

/-- The loop `for (int i = 0; i < num_target_addresses; i++) { ... }` of
`initialize_bloom_filter` over the addresses left, from the buffer contents, the filter and
the counter `successfully_added`; `none` for undefined behaviour. -/
def initialize_loop (b58tobin : Decoder) :
    List (List UChar) → List UChar → bloom → Int → Option (bloom × Int)
  | [], _, filter, successfully_added => some (filter, successfully_added)
  | address_str :: rest, buffer, filter, successfully_added =>
    let d := b58tobin buffer address_str
    if d.ok = false then
      initialize_loop b58tobin rest d.buffer filter successfully_added
    else if d.size = 25 then
      match bloom_add (some filter) (some (d.buffer.drop 1)) 20 with
      | none => none
      | some res =>
        initialize_loop b58tobin rest d.buffer (res.2.getD filter)
          (if res.1 = 0 then successfully_added + 1 else successfully_added)
    else
      initialize_loop b58tobin rest d.buffer filter successfully_added

/-- The function `initialize_bloom_filter()`: the globals afterwards; `target_addresses` is
the array of `num_target_addresses` address strings, `buffer0` the contents of the local
buffer before the first decode. -/
def initialize_bloom_filter (fp : Libm) (allocOk : Bool) (b58tobin : Decoder)
    (buffer0 : List UChar) (target_addresses : List (List UChar)) (g : Globals) :
    Option Globals :=
  if target_addresses.length = 0 then
    some { g with bloom_filter_enabled := false }
  else
    let init := bloom_init fp allocOk (some g.an_filter) target_addresses.length Double.milli
    let filter := init.2.getD g.an_filter
    if init.1 ≠ 0 then
      some { g with bloom_filter_enabled := false, an_filter := filter }
    else
      match initialize_loop b58tobin target_addresses buffer0 filter 0 with
      | none => none
      | some res =>
        if 0 < res.2 then
          some { g with bloom_filter_enabled := true, an_filter := res.1 }
        else
          some { g with bloom_filter_enabled := false,
                        an_filter := (bloom_free (some res.1)).getD res.1 }

/-- The function `announce_result(found, result)` as far as the source gives it: the globals
afterwards. -/
def announce_result (_found : Int) (_result : List UChar) (g : Globals) : Globals :=
  if g.bloom_filter_enabled then
    { g with an_filter := (bloom_free (some g.an_filter)).getD g.an_filter }
  else
    g

/-- The outcomes of the decoder calls of `initialize_bloom_filter`, one for each address in
order, the buffer being handed from each call to the next. -/
def decodeTrace (b58tobin : Decoder) : List (List UChar) → List UChar → List Decoded
  | [], _ => []
  | address_str :: rest, buffer =>
    b58tobin buffer address_str :: decodeTrace b58tobin rest (b58tobin buffer address_str).buffer

/-- A decode that succeeded with a payload of 25 bytes. -/
def Decoded.good (d : Decoded) : Bool := d.ok && decide (d.size = 25)

/-- The 20-byte address hash of a decode: the bytes 1..20 of the buffer, after the version
byte and before the 4-byte checksum. -/
def Decoded.addressHash (d : Decoded) : List UChar := (d.buffer.drop 1).take 20

/-- The `bloom_add` call `initialize_bloom_filter` makes for a good decode:
`bloom_add(&an_filter, decoded_address_buffer + 1, 20)`. -/
def Decoded.addCall (d : Decoded) : Option (List UChar) × Int := (some (d.buffer.drop 1), 20)

/-- The decoder writes inside the buffer: after every call the buffer still has its 32
bytes. -/
def Decoder.keepsBuffer (b58tobin : Decoder) : Prop :=
  ∀ buffer address_str, (b58tobin buffer address_str).buffer.length = 32

/-- A decoder for the examples, reading an address string as raw bytes: it fails on a string
that starts with the byte 0 or is empty, and else writes the string, zero-padded or cut to 32
bytes, into the buffer and reports its length. -/
def rawDecoder : Decoder := fun _ address_str =>
  { ok := decide (address_str.head? ≠ some 0 ∧ address_str ≠ []),
    buffer := (address_str ++ List.replicate 32 0).take 32,
    size := address_str.length }

/-- The globals at program start: flags off, `an_filter` zeroed. -/
def startGlobals : Globals :=
  { keep_going := false, bloom_filter_enabled := false, an_filter := zeroBloom }

/-- Globals of a run in keep-going mode with the filter enabled: the filter of one entry at
error 0.001 holding the buffer of twenty `0x01`. -/
def keepGoingGlobals : Globals :=
  { keep_going := true, bloom_filter_enabled := true,
    an_filter := { filterOneMilli with bf := some [7, 127] } }

/-! ## IEEE-754 double arithmetic for the sizing of `bloom_init` -/

/-- The floor of the binary logarithm of `n` (0 for `n < 2`), by halving at most `fuel`
times. -/
def floorLog2 : Nat → Nat → Nat
  | 0, _ => 0
  | fuel + 1, n => if n < 2 then 0 else floorLog2 fuel (n / 2) + 1

/-- The exponent of the double nearest to `mag / d * 2 ^ e` (`mag`, `d` positive): the
exponent that puts the significand in `[2 ^ 52, 2 ^ 53)`, and not below that of the subnormal
doubles, -1074. -/
def Double.exponentOf (mag d : Nat) (e : Int) : Int :=
  let k0 : Int := (floorLog2 mag mag : Int) - (floorLog2 d d : Int)
  let k : Int := if d * 2 ^ k0.toNat ≤ mag * 2 ^ (-k0).toNat then k0 else k0 - 1
  max (k + e - 52) (-1074)

/-- The integer nearest to `mag / d * 2 ^ (e - ex)`, a tie going to the even one. -/
def Double.significandOf (mag d : Nat) (e ex : Int) : Nat :=
  let num := mag * 2 ^ (e - ex).toNat
  let den := d * 2 ^ (ex - e).toNat
  let q := num / den
  let r := num % den
  if 2 * r < den then q else if den < 2 * r then q + 1 else q + q % 2

/-- The double of sign `neg`, significand `m` and exponent `ex`; an infinity when `m * 2 ^ ex`
reaches `2 ^ 1024`. -/
def Double.pack (neg : Bool) (m : Nat) (ex : Int) : Double :=
  if 972 ≤ ex ∨ (ex = 971 ∧ 2 ^ 53 ≤ m) then
    (if neg then .negInf else .posInf)
  else
    .fin (if neg then -(m : Int) else (m : Int)) ex

/-- Rounding to the nearest double, ties to even (the IEEE-754 default): the double nearest to
`n / d * 2 ^ e`, with a significand of 53 bits, subnormal below `2 ^ -1022` and infinite from
`2 ^ 1024` on. The sign of a zero is not kept. -/
def Double.round (n : Int) (d : Nat) (e : Int) : Double :=
  if n = 0 ∨ d = 0 then .fin 0 0
  else
    Double.pack (decide (n < 0))
      (Double.significandOf n.natAbs d e (Double.exponentOf n.natAbs d e))
      (Double.exponentOf n.natAbs d e)

/-- The product `x * y` of two doubles. -/
def Double.mul : Double → Double → Double
  | .nan, _ => .nan
  | _, .nan => .nan
  | .fin m1 e1, .fin m2 e2 => Double.round (m1 * m2) 1 (e1 + e2)
  | .fin m _, .posInf => if m = 0 then .nan else if 0 < m then .posInf else .negInf
  | .fin m _, .negInf => if m = 0 then .nan else if 0 < m then .negInf else .posInf
  | .posInf, .fin m _ => if m = 0 then .nan else if 0 < m then .posInf else .negInf
  | .negInf, .fin m _ => if m = 0 then .nan else if 0 < m then .negInf else .posInf
  | .posInf, .posInf => .posInf
  | .posInf, .negInf => .negInf
  | .negInf, .posInf => .negInf
  | .negInf, .negInf => .posInf

/-- The quotient `x / y` of two doubles. -/
def Double.div : Double → Double → Double
  | .nan, _ => .nan
  | _, .nan => .nan
  | .fin m1 e1, .fin m2 e2 =>
    if m2 = 0 then (if m1 = 0 then .nan else if 0 < m1 then .posInf else .negInf)
    else Double.round (if 0 < m2 then m1 else -m1) m2.natAbs (e1 - e2)
  | .fin _ _, .posInf => .fin 0 0
  | .fin _ _, .negInf => .fin 0 0
  | .posInf, .fin m _ => if 0 ≤ m then .posInf else .negInf
  | .negInf, .fin m _ => if 0 ≤ m then .negInf else .posInf
  | .posInf, .posInf => .nan
  | .posInf, .negInf => .nan
  | .negInf, .posInf => .nan
  | .negInf, .negInf => .nan

/-- The function `ceil` of `<math.h>`: the least integer not below `x`, as a double. -/
def Double.ceil : Double → Double
  | .fin m e => if 0 ≤ e then .fin m e else .fin (-((-m) / 2 ^ (-e).toNat)) 0
  | x => x

/-- The casts `(long long)x` and `(int)x` of a double: the integer part of a finite `x`; the
casts of NaN and of the infinities are undefined in C and give 0 here. -/
def Double.toInt : Double → Int
  | .fin m e => if 0 ≤ e then m * 2 ^ e.toNat else Int.tdiv m (2 ^ (-e).toNat)
  | _ => 0

/-- The conversion `(double)n` of an integer. -/
def Double.ofInt (n : Int) : Double := Double.round n 1 0

/-- The double written `2.0`. -/
def Double.two : Double := .fin 2 0

/-- The double written `-1.0`. -/
def Double.negOne : Double := .fin (-1) 0

/-- The floating-point computations of `bloom_init` in IEEE-754 double arithmetic, every
product and quotient rounded to a double, for a C library whose `log` is `log`:
`(long long)ceil((-1.0 * entries * log(error)) / (log(2.0) * log(2.0)))` and
`(int)ceil(((double)bits / entries) * log(2.0))`. -/
def ieeeLibm (log : Double → Double) : Libm where
  bitsOf := fun entries error =>
    Double.toInt (Double.ceil
      (Double.div (Double.mul (Double.mul Double.negOne (Double.ofInt entries)) (log error))
        (Double.mul (log Double.two) (log Double.two))))
  hashesOf := fun bits entries =>
    Double.toInt (Double.ceil
      (Double.mul (Double.div (Double.ofInt bits) (Double.ofInt entries)) (log Double.two)))

/-- The natural logarithm at the arguments the examples use, `2.0`, `0.5` and `0.001`, each
value the double nearest to the real logarithm; NaN elsewhere. -/
def logTable (x : Double) : Double :=
  if x = Double.two then .fin 6243314768165359 (-53)
  else if x = Double.half then .fin (-6243314768165359) (-53)
  else if x = Double.milli then .fin (-7777441025097632) (-50)
  else .nan

/-- The double is not negative: a finite one of non-negative numerator, `+inf`, or NaN. -/
def Double.notNeg : Double → Bool
  | .fin m _ => decide (0 ≤ m)
  | .posInf => true
  | .nan => true
  | .negInf => false

/-- The double is not positive: a finite one of non-positive numerator, `-inf`, or NaN. -/
def Double.notPos : Double → Bool
  | .fin m _ => decide (m ≤ 0)
  | .negInf => true
  | .nan => true
  | .posInf => false

/-! ## Decoders that say where the payload lies -/

set_option maxRecDepth 4000

theorem djb2_step_eq (h : Nat) (c : UChar) : djb2_step h c = (h * 33 + c.val) % 2 ^ 64 := by
  unfold djb2_step
  rw [Nat.shiftLeft_eq]
  omega

theorem sdbm_step_eq (h : Nat) (c : UChar) : sdbm_step h c = (h * 65599 + c.val) % 2 ^ 64 := by
  unfold sdbm_step
  rw [Nat.shiftLeft_eq, Nat.shiftLeft_eq]
  omega

theorem djb2_loop_eq (str : List UChar) (r : Nat) : ∀ (i h : Nat), i + r ≤ str.length →
    djb2_loop str r i h = some (((str.drop i).take r).foldl djb2_step h) := by
  induction r with
  | zero => intro i h _; simp [djb2_loop]
  | succ r ih =>
    intro i h hi
    have hlt : i < str.length := by omega
    rw [djb2_loop, List.getElem?_eq_getElem hlt]
    simp only
    rw [ih (i + 1) _ (by omega), List.drop_eq_getElem_cons hlt, List.take_succ_cons,
      List.foldl_cons]

theorem sdbm_loop_eq (str : List UChar) (r : Nat) : ∀ (i h : Nat), i + r ≤ str.length →
    sdbm_loop str r i h = some (((str.drop i).take r).foldl sdbm_step h) := by
  induction r with
  | zero => intro i h _; simp [sdbm_loop]
  | succ r ih =>
    intro i h hi
    have hlt : i < str.length := by omega
    rw [sdbm_loop, List.getElem?_eq_getElem hlt]
    simp only
    rw [ih (i + 1) _ (by omega), List.drop_eq_getElem_cons hlt, List.take_succ_cons,
      List.foldl_cons]

theorem djb2_fold_eq (l : List UChar) : ∀ h : Nat,
    l.foldl djb2_step h = l.foldl (fun h c => (h * 33 + c.val) % 2 ^ 64) h := by
  induction l with
  | nil => intro h; rw [List.foldl_nil, List.foldl_nil]
  | cons c l ih => intro h; rw [List.foldl_cons, List.foldl_cons, ih, djb2_step_eq]

theorem sdbm_fold_eq (l : List UChar) : ∀ h : Nat,
    l.foldl sdbm_step h = l.foldl (fun h c => (h * 65599 + c.val) % 2 ^ 64) h := by
  induction l with
  | nil => intro h; rw [List.foldl_nil, List.foldl_nil]
  | cons c l ih => intro h; rw [List.foldl_cons, List.foldl_cons, ih, sdbm_step_eq]

theorem HashB_step_eq (h : Nat) (c : UChar) :
    (((c.val : Int) + (h : Int) * 2 ^ 6 + (h : Int) * 2 ^ 16 - (h : Int)) % 2 ^ 64).toNat
      = (h * 65599 + c.val) % 2 ^ 64 := by
  have hsum : (c.val : Int) + (h : Int) * 2 ^ 6 + (h : Int) * 2 ^ 16 - (h : Int)
      = ((h * 65599 + c.val : Nat) : Int) := by
    push_cast
    ring
  rw [hsum]
  generalize h * 65599 + c.val = n
  omega

theorem HashB_eq_mul (l : List UChar) : HashB l = HashB_mul l := by
  unfold HashB HashB_mul
  congr 1
  funext h c
  exact HashB_step_eq h c

theorem djb2_hash_eq (buf : List UChar) (len : Int) (hlen : len ≤ (buf.length : Int)) :
    djb2_hash buf len = some (HashA (readBytes buf len)) := by
  unfold djb2_hash HashA readBytes
  rw [djb2_loop_eq buf len.toNat 0 5381 (by omega), List.drop_zero, djb2_fold_eq]

theorem sdbm_hash_eq (buf : List UChar) (len : Int) (hlen : len ≤ (buf.length : Int)) :
    sdbm_hash buf len = some (HashB (readBytes buf len)) := by
  unfold sdbm_hash readBytes
  rw [sdbm_loop_eq buf len.toNat 0 0 (by omega), List.drop_zero, sdbm_fold_eq, HashB_eq_mul]
  rfl

/-! ## Lemmas on the bit field and the index -/

theorem and_shift_ne_zero (x k : Nat) : (x &&& (1 <<< k) != 0) = x.testBit k := by
  rw [Nat.one_shiftLeft, Nat.and_two_pow]
  cases x.testBit k <;> simp

theorem bitIsSet_eq (bf : List UChar) (j : Nat) :
    bitIsSet bf j = match bf[j / 8]? with
      | some byte => byte.val.testBit (j % 8)
      | none => false := by
  unfold bitIsSet GETBIT CHAR_BIT
  cases bf[j / 8]? with
  | none => rfl
  | some byte => simp only [and_shift_ne_zero]

theorem SETBIT_spec (bf : List UChar) (n : Nat) (hn : n / 8 < bf.length) :
    ∃ bf1, SETBIT bf n = some bf1 ∧ bf1.length = bf.length ∧
      ∀ j, bitIsSet bf1 j = (bitIsSet bf j || decide (j = n)) := by
  refine ⟨bf.set (n / 8) (toUChar (bf[n / 8].val ||| (1 <<< (n % 8)))), ?_, by simp, ?_⟩
  · unfold SETBIT CHAR_BIT
    rw [List.getElem?_eq_getElem hn]
  · intro j
    rw [bitIsSet_eq, bitIsSet_eq]
    by_cases hj : j / 8 = n / 8
    · rw [hj, List.getElem?_set_self hn, List.getElem?_eq_getElem hn]
      simp only [toUChar, Nat.one_shiftLeft]
      have key : ∀ x i : Nat, (x % 256).testBit i = (decide (i < 8) && x.testBit i) :=
        fun x i => Nat.testBit_mod_two_pow x 8 i
      rw [key, Nat.testBit_lor, Nat.testBit_two_pow]
      have h8 : j % 8 < 8 := Nat.mod_lt _ (by norm_num)
      have hiff : (n % 8 = j % 8) ↔ (j = n) := by omega
      simp [h8, hiff]
    · rw [List.getElem?_set_ne (Ne.symm hj)]
      have hne : ¬ j = n := fun h => hj (by rw [h])
      simp [hne]

theorem nth_hash_eq (i : Nat) (a b : Nat) (bits : Int) (h1 : 1 ≤ bits) (h2 : bits < 2 ^ 64) :
    nth_hash (i : Int) a b (toU64 bits) = some (bitIndex a b bits.toNat i) := by
  have hb : toU64 bits = bits.toNat := by
    unfold toU64
    rw [Int.emod_eq_of_lt (by omega) h2]
  have hi : toU64 (i : Int) = i % 2 ^ 64 := by
    unfold toU64
    omega
  unfold nth_hash bitIndex
  rw [hb, hi, if_neg (by omega)]
  congr 2
  rw [Nat.mod_mul_mod, Nat.add_mod_mod]

theorem bitIndex_lt (a b : Nat) (bits : Int) (i : Nat) (h1 : 1 ≤ bits) :
    (bitIndex a b bits.toNat i : Int) < bits := by
  have h : bitIndex a b bits.toNat i < bits.toNat := Nat.mod_lt _ (by omega)
  omega

theorem GETBIT_spec (bf : List UChar) (n : Nat) (hn : n / 8 < bf.length) :
    ∃ v, GETBIT bf n = some v ∧ (v = 0 ↔ bitIsSet bf n = false) := by
  refine ⟨bf[n / 8].val &&& (1 <<< (n % 8)), ?_, ?_⟩
  · unfold GETBIT CHAR_BIT
    rw [List.getElem?_eq_getElem hn]
  · have h : GETBIT bf n = some (bf[n / 8].val &&& (1 <<< (n % 8))) := by
      unfold GETBIT CHAR_BIT
      rw [List.getElem?_eq_getElem hn]
    simp [bitIsSet, h]

theorem bloom_add_loop_spec (a b : Nat) (bits : Int) (h1 : 1 ≤ bits) (h2 : bits < 2 ^ 64)
    (r : Nat) : ∀ (i : Nat) (bf : List UChar), bits ≤ 8 * (bf.length : Int) →
      ∃ bf1, bloom_add_loop a b bits r (i : Int) bf = some bf1 ∧ bf1.length = bf.length ∧
        ∀ j, bitIsSet bf1 j = true ↔
          (bitIsSet bf j = true ∨ ∃ t, t < r ∧ j = bitIndex a b bits.toNat (i + t)) := by
  induction r with
  | zero =>
    intro i bf _
    exact ⟨bf, rfl, rfl, fun j => by simp⟩
  | succ r ih =>
    intro i bf hlen
    have hidx := bitIndex_lt a b bits i h1
    obtain ⟨bf1, hset, hl1, hbits1⟩ :=
      SETBIT_spec bf (bitIndex a b bits.toNat i) (by omega)
    obtain ⟨bf2, hloop, hl2, hbits2⟩ := ih (i + 1) bf1 (by rw [hl1]; exact hlen)
    refine ⟨bf2, ?_, by rw [hl2, hl1], ?_⟩
    · rw [bloom_add_loop, nth_hash_eq i a b bits h1 h2]
      simp only [hset]
      exact_mod_cast hloop
    · intro j
      rw [hbits2 j, hbits1 j]
      constructor
      · rintro (h | ⟨t, ht, rfl⟩)
        · rcases Bool.or_eq_true _ _ ▸ h with h | h
          · exact Or.inl h
          · exact Or.inr ⟨0, by omega, by simpa using h⟩
        · exact Or.inr ⟨t + 1, by omega, by rw [show i + (t + 1) = i + 1 + t by omega]⟩
      · rintro (h | ⟨t, ht, rfl⟩)
        · exact Or.inl (by simp [h])
        · cases t with
          | zero => exact Or.inl (by simp)
          | succ t =>
            exact Or.inr ⟨t, by omega, by rw [show i + (t + 1) = i + 1 + t by omega]⟩

theorem bloom_check_loop_spec (a b : Nat) (bits : Int) (h1 : 1 ≤ bits) (h2 : bits < 2 ^ 64)
    (bf : List UChar) (hlen : bits ≤ 8 * (bf.length : Int)) (r : Nat) : ∀ (i : Nat),
      (bloom_check_loop a b bits bf r (i : Int) = some 1 ∧
        ∀ t, t < r → bitIsSet bf (bitIndex a b bits.toNat (i + t)) = true) ∨
      (bloom_check_loop a b bits bf r (i : Int) = some 0 ∧
        ∃ t, t < r ∧ bitIsSet bf (bitIndex a b bits.toNat (i + t)) = false) := by
  induction r with
  | zero =>
    intro i
    exact Or.inl ⟨rfl, fun t ht => absurd ht (Nat.not_lt_zero t)⟩
  | succ r ih =>
    intro i
    have hidx := bitIndex_lt a b bits i h1
    obtain ⟨v, hget, hv⟩ := GETBIT_spec bf (bitIndex a b bits.toNat i) (by omega)
    have hstep : bloom_check_loop a b bits bf (r + 1) (i : Int) =
        if v = 0 then some 0 else bloom_check_loop a b bits bf r ((i + 1 : Nat) : Int) := by
      rw [bloom_check_loop, nth_hash_eq i a b bits h1 h2]
      simp only [hget]
      push_cast
      rfl
    by_cases hz : v = 0
    · refine Or.inr ⟨by rw [hstep, if_pos hz], 0, by omega, hv.mp hz⟩
    · have hset : bitIsSet bf (bitIndex a b bits.toNat i) = true := by
        cases hb : bitIsSet bf (bitIndex a b bits.toNat i) with
        | true => rfl
        | false => exact absurd (hv.mpr hb) hz
      rw [hstep, if_neg hz]
      rcases ih (i + 1) with ⟨h, hall⟩ | ⟨h, t, ht, hf⟩
      · refine Or.inl ⟨h, fun t ht => ?_⟩
        cases t with
        | zero => exact hset
        | succ t =>
          rw [show i + (t + 1) = i + 1 + t by omega]
          exact hall t (by omega)
      · exact Or.inr ⟨h, t + 1, by omega, by rw [show i + (t + 1) = i + 1 + t by omega]; exact hf⟩

/-! ## Lemmas on `bloom_add` and `bloom_check` -/

theorem wf_bf (s : bloom) (hwf : s.wf) :
    ∃ bf, s.bf = some bf ∧ (bf.length : Int) = s.bytes := by
  obtain ⟨_, _, _, _, h⟩ := hwf
  cases hbf : s.bf with
  | none => rw [hbf] at h; simp at h
  | some bf =>
    rw [hbf] at h
    exact ⟨bf, rfl, by simpa using h⟩

theorem wf_set_bf (s : bloom) (bf bf1 : List UChar) (hwf : s.wf) (hbf : s.bf = some bf)
    (hlen : bf1.length = bf.length) : ({ s with bf := some bf1 } : bloom).wf := by
  obtain ⟨h1, h2, h3, h4, h5⟩ := hwf
  refine ⟨h1, h2, h3, h4, ?_⟩
  rw [hbf] at h5
  simpa [hlen] using h5

theorem wf_bits_le (s : bloom) (bf : List UChar) (hwf : s.wf) (hbf : s.bf = some bf) :
    s.bits ≤ 8 * (bf.length : Int) := by
  obtain ⟨bf0, h0, hl⟩ := wf_bf s hwf
  obtain ⟨h1, h2, h3, _, _⟩ := hwf
  rw [hbf] at h0
  cases h0
  omega

theorem bloom_add_spec (s : bloom) (buf : List UChar) (len : Int) (hwf : s.wf)
    (hlen : 0 < len) (hbuf : len ≤ (buf.length : Int)) :
    ∃ bf bf1, s.bf = some bf ∧
      bloom_add (some s) (some buf) len = some (0, some { s with bf := some bf1 }) ∧
      bf1.length = bf.length ∧
      ∀ j, bitIsSet bf1 j = true ↔
        (bitIsSet bf j = true ∨ ∃ t, t < s.hashes.toNat ∧
          j = bitIndex (HashA (readBytes buf len)) (HashB (readBytes buf len)) s.bits.toNat t) := by
  obtain ⟨bf, hbf, _⟩ := wf_bf s hwf
  have hle := wf_bits_le s bf hwf hbf
  obtain ⟨bf1, hloop, hl1, hbits⟩ :=
    bloom_add_loop_spec (HashA (readBytes buf len)) (HashB (readBytes buf len)) s.bits
      hwf.1 (by have := hwf.2.1; omega) s.hashes.toNat 0 bf hle
  refine ⟨bf, bf1, hbf, ?_, hl1, fun j => by simpa using hbits j⟩
  unfold bloom_add
  simp only [hbf, if_neg (not_le.mpr hlen), djb2_hash_eq buf len hbuf, sdbm_hash_eq buf len hbuf]
  have h0 : ((0 : Nat) : Int) = 0 := rfl
  rw [h0] at hloop
  rw [hloop]

theorem bloom_check_spec (s : bloom) (buf : List UChar) (len : Int) (hwf : s.wf)
    (hlen : 0 < len) (hbuf : len ≤ (buf.length : Int)) :
    ∃ bf, s.bf = some bf ∧
      ((bloom_check (some s) (some buf) len = some (1, some s) ∧
          ∀ t, t < s.hashes.toNat → bitIsSet bf
            (bitIndex (HashA (readBytes buf len)) (HashB (readBytes buf len)) s.bits.toNat t)
              = true) ∨
        (bloom_check (some s) (some buf) len = some (0, some s) ∧
          ∃ t, t < s.hashes.toNat ∧ bitIsSet bf
            (bitIndex (HashA (readBytes buf len)) (HashB (readBytes buf len)) s.bits.toNat t)
              = false)) := by
  obtain ⟨bf, hbf, _⟩ := wf_bf s hwf
  have hle := wf_bits_le s bf hwf hbf
  have hstep : ∀ r : Int,
      bloom_check_loop (HashA (readBytes buf len)) (HashB (readBytes buf len)) s.bits bf
        s.hashes.toNat 0 = some r →
      bloom_check (some s) (some buf) len = some (r, some s) := by
    intro r hr
    unfold bloom_check
    simp only [hbf, if_neg (not_le.mpr hlen), djb2_hash_eq buf len hbuf,
      sdbm_hash_eq buf len hbuf, hr]
  refine ⟨bf, hbf, ?_⟩
  rcases bloom_check_loop_spec (HashA (readBytes buf len)) (HashB (readBytes buf len)) s.bits
      hwf.1 (by have := hwf.2.1; omega) bf hle s.hashes.toNat 0 with ⟨h, hall⟩ | ⟨h, hex⟩
  · exact Or.inl ⟨hstep 1 (by exact_mod_cast h), fun t ht => by simpa using hall t ht⟩
  · exact Or.inr ⟨hstep 0 (by exact_mod_cast h), by simpa using hex⟩

/-! ## Any call of `bloom_add` on an initialised filter -/

theorem sameShape_refl (s : bloom) : s.sameShape s := ⟨rfl, rfl, rfl, rfl, rfl, rfl⟩

theorem sameShape_trans (s t u : bloom) (h1 : s.sameShape t) (h2 : t.sameShape u) :
    s.sameShape u := by
  unfold bloom.sameShape at h1 h2 ⊢
  refine ⟨?_, ?_, ?_, ?_, ?_, ?_⟩
  · rw [h2.1, h1.1]
  · rw [h2.2.1, h1.2.1]
  · rw [h2.2.2.1, h1.2.2.1]
  · rw [h2.2.2.2.1, h1.2.2.2.1]
  · rw [h2.2.2.2.2.1, h1.2.2.2.2.1]
  · rw [h2.2.2.2.2.2, h1.2.2.2.2.2]

theorem bitsKept_refl (s : bloom) : s.bitsKept s := fun bf h => ⟨bf, h, fun _ hj => hj⟩

theorem bitsKept_trans (s t u : bloom) (h1 : s.bitsKept t) (h2 : t.bitsKept u) :
    s.bitsKept u := by
  intro bf hbf
  obtain ⟨bf1, hbf1, k1⟩ := h1 bf hbf
  obtain ⟨bf2, hbf2, k2⟩ := h2 bf1 hbf1
  exact ⟨bf2, hbf2, fun j hj => k2 j (k1 j hj)⟩

theorem bloom_add_any (s : bloom) (buffer : Option (List UChar)) (len : Int) (hwf : s.wf)
    (hb : ∀ buf, buffer = some buf → len ≤ (buf.length : Int)) :
    ∃ r s1, bloom_add (some s) buffer len = some (r, some s1) ∧ s1.wf ∧ s.sameShape s1 ∧
      s.bitsKept s1 := by
  obtain ⟨bf, hbf, _⟩ := wf_bf s hwf
  cases buffer with
  | none =>
    exact ⟨-1, s, by simp [bloom_add], hwf, sameShape_refl s, bitsKept_refl s⟩
  | some buf =>
    by_cases hlen : len ≤ 0
    · exact ⟨-1, s, by simp [bloom_add, hbf, hlen], hwf, sameShape_refl s, bitsKept_refl s⟩
    · obtain ⟨bf0, bf1, hbf0, hadd, hl, hbits⟩ :=
        bloom_add_spec s buf len hwf (not_le.mp hlen) (hb buf rfl)
      rw [hbf] at hbf0
      cases hbf0
      refine ⟨0, { s with bf := some bf1 }, hadd, wf_set_bf s bf bf1 hwf hbf hl,
        ⟨rfl, rfl, rfl, rfl, rfl, by simp [hbf, hl]⟩, ?_⟩
      intro bf2 hbf2
      rw [hbf] at hbf2
      cases hbf2
      exact ⟨bf1, rfl, fun j hj => (hbits j).mpr (Or.inl hj)⟩

theorem bloom_add_seq_any (calls : List (Option (List UChar) × Int)) : ∀ (s : bloom), s.wf →
    callsInBounds calls →
    ∃ s1, bloom_add_seq (some s) calls = some (some s1) ∧ s1.wf ∧ s.sameShape s1 ∧
      s.bitsKept s1 := by
  induction calls with
  | nil =>
    intro s hwf _
    exact ⟨s, rfl, hwf, sameShape_refl s, bitsKept_refl s⟩
  | cons call rest ih =>
    intro s hwf hin
    obtain ⟨r, s1, hadd, hwf1, hs1, hk1⟩ :=
      bloom_add_any s call.1 call.2 hwf (hin call (List.mem_cons_self _ _))
    obtain ⟨s2, hseq, hwf2, hs2, hk2⟩ :=
      ih s1 hwf1 (fun c hc => hin c (List.mem_cons_of_mem _ hc))
    refine ⟨s2, ?_, hwf2, sameShape_trans s s1 s2 hs1 hs2, bitsKept_trans s s1 s2 hk1 hk2⟩
    rw [bloom_add_seq, hadd]
    exact hseq

theorem bloom_check_mono (s s1 : bloom) (hwf : s.wf) (hwf1 : s1.wf) (hshape : s.sameShape s1)
    (hkept : s.bitsKept s1) (buf : List UChar) (len : Int) (hlen : 0 < len)
    (hbuf : len ≤ (buf.length : Int))
    (h : bloom_check (some s) (some buf) len = some (1, some s)) :
    bloom_check (some s1) (some buf) len = some (1, some s1) := by
  obtain ⟨bf1, hbf1, h1 | ⟨_, t, ht, hf⟩⟩ := bloom_check_spec s1 buf len hwf1 hlen hbuf
  · exact h1.1
  · exfalso
    obtain ⟨bf, hbf, ⟨_, hall⟩ | ⟨h0, _⟩⟩ := bloom_check_spec s buf len hwf hlen hbuf
    · obtain ⟨bf2, hbf2, hk⟩ := hkept bf hbf
      rw [hbf1] at hbf2
      cases hbf2
      obtain ⟨_, _, hbits, _, hhash, _⟩ := hshape
      rw [hhash] at ht
      have := hk _ (hall t ht)
      rw [hbits] at hf
      rw [this] at hf
      exact Bool.noConfusion hf
    · rw [h] at h0
      simp at h0

theorem bloom_check_after_add (s : bloom) (buf : List UChar) (len : Int) (hwf : s.wf)
    (hlen : 0 < len) (hbuf : len ≤ (buf.length : Int)) :
    ∃ s1, bloom_add (some s) (some buf) len = some (0, some s1) ∧ s1.wf ∧ s.sameShape s1 ∧
      bloom_check (some s1) (some buf) len = some (1, some s1) := by
  obtain ⟨bf, bf1, hbf, hadd, hl, hbits⟩ := bloom_add_spec s buf len hwf hlen hbuf
  have hwf1 := wf_set_bf s bf bf1 hwf hbf hl
  refine ⟨{ s with bf := some bf1 }, hadd, hwf1, ⟨rfl, rfl, rfl, rfl, rfl, by simp [hbf, hl]⟩, ?_⟩
  obtain ⟨bf2, hbf2, h1 | ⟨_, t, ht, hf⟩⟩ :=
    bloom_check_spec { s with bf := some bf1 } buf len hwf1 hlen hbuf
  · exact h1.1
  · exfalso
    cases hbf2
    have := (hbits _).mpr (Or.inr ⟨t, ht, rfl⟩)
    rw [this] at hf
    exact Bool.noConfusion hf

/-! ## The properties -/

/-- C1 — no false negatives: on an initialised filter, `bloom_add` of a non-empty buffer
returns 0, and `bloom_check` of that buffer then returns 1, at once and after any further run
of `bloom_add` calls on the filter. -/
theorem bloom_no_false_negatives (s : bloom) (buf : List UChar) (len : Int) (hwf : s.wf)
    (hlen : 0 < len) (hbuf : len ≤ (buf.length : Int)) :
    ∃ s1, bloom_add (some s) (some buf) len = some (0, some s1) ∧
      bloom_check (some s1) (some buf) len = some (1, some s1) ∧
      ∀ calls, callsInBounds calls →
        ∃ s2, bloom_add_seq (some s1) calls = some (some s2) ∧
          bloom_check (some s2) (some buf) len = some (1, some s2) := by
  obtain ⟨s1, hadd, hwf1, _, hchk⟩ := bloom_check_after_add s buf len hwf hlen hbuf
  refine ⟨s1, hadd, hchk, fun calls hin => ?_⟩
  obtain ⟨s2, hseq, hwf2, hshape, hkept⟩ := bloom_add_seq_any calls s1 hwf1 hin
  exact ⟨s2, hseq, bloom_check_mono s1 s2 hwf1 hwf2 hshape hkept buf len hlen hbuf hchk⟩

/-- Witness of C1: the filter of one entry at error 0.001 and the buffer of twenty `0x01`. -/
theorem bloom_no_false_negatives_witness :
    filterOneMilli.wf ∧ (0 : Int) < 20 ∧ (20 : Int) ≤ (bufOnes.length : Int) ∧
    ∃ s1, bloom_add (some filterOneMilli) (some bufOnes) 20 = some (0, some s1) ∧
      bloom_check (some s1) (some bufOnes) 20 = some (1, some s1) ∧
      ∀ calls, callsInBounds calls →
        ∃ s2, bloom_add_seq (some s1) calls = some (some s2) ∧
          bloom_check (some s2) (some bufOnes) 20 = some (1, some s2) :=
  ⟨by decide, by decide, by decide,
    bloom_no_false_negatives filterOneMilli bufOnes 20 (by decide) (by decide) (by decide)⟩

/-- C2 — on an initialised filter and a non-empty buffer, `bloom_check` returns 1 or 0, and
it returns 1 exactly when, for every `i` in `[0, hashes)`, the bit at the position `nth_hash`
computes for round `i` of that buffer is set in the bit field. -/
theorem bloom_check_iff_all_set (s : bloom) (buf : List UChar) (len : Int) (hwf : s.wf)
    (hlen : 0 < len) (hbuf : len ≤ (buf.length : Int)) :
    ∃ bf hash_a hash_b, s.bf = some bf ∧ djb2_hash buf len = some hash_a ∧
      sdbm_hash buf len = some hash_b ∧
      (bloom_check (some s) (some buf) len = some (1, some s) ∨
        bloom_check (some s) (some buf) len = some (0, some s)) ∧
      (bloom_check (some s) (some buf) len = some (1, some s) ↔
        ∀ i : Nat, (i : Int) < s.hashes →
          ∃ n, nth_hash (i : Int) hash_a hash_b (toU64 s.bits) = some n ∧
            bitIsSet bf n = true) := by
  have hb1 := hwf.1
  have hb2 : s.bits < 2 ^ 64 := by have := hwf.2.1; omega
  obtain ⟨bf, hbf, hcases⟩ := bloom_check_spec s buf len hwf hlen hbuf
  refine ⟨bf, _, _, hbf, djb2_hash_eq buf len hbuf, sdbm_hash_eq buf len hbuf, ?_, ?_⟩
  · rcases hcases with h | h
    · exact Or.inl h.1
    · exact Or.inr h.1
  · rcases hcases with ⟨h1, hall⟩ | ⟨h0, t, ht, hf⟩
    · refine ⟨fun _ i hi => ⟨_, nth_hash_eq i _ _ s.bits hb1 hb2, hall i (by omega)⟩,
        fun _ => h1⟩
    · constructor
      · intro h1
        rw [h1] at h0
        simp at h0
      · intro hall
        exfalso
        obtain ⟨n, hn, hset⟩ := hall t (by omega)
        rw [nth_hash_eq t _ _ s.bits hb1 hb2] at hn
        cases hn
        rw [hset] at hf
        exact Bool.noConfusion hf

/-- Witness of C2: the filter of one entry at error 0.001, still empty, and the buffer of
twenty `0x01`. -/
theorem bloom_check_iff_all_set_witness :
    filterOneMilli.wf ∧ (0 : Int) < 20 ∧ (20 : Int) ≤ (bufOnes.length : Int) ∧
    ∃ bf hash_a hash_b, filterOneMilli.bf = some bf ∧ djb2_hash bufOnes 20 = some hash_a ∧
      sdbm_hash bufOnes 20 = some hash_b ∧
      (bloom_check (some filterOneMilli) (some bufOnes) 20 = some (1, some filterOneMilli) ∨
        bloom_check (some filterOneMilli) (some bufOnes) 20 = some (0, some filterOneMilli)) ∧
      (bloom_check (some filterOneMilli) (some bufOnes) 20 = some (1, some filterOneMilli) ↔
        ∀ i : Nat, (i : Int) < filterOneMilli.hashes →
          ∃ n, nth_hash (i : Int) hash_a hash_b (toU64 filterOneMilli.bits) = some n ∧
            bitIsSet bf n = true) :=
  ⟨by decide, by decide, by decide,
    bloom_check_iff_all_set filterOneMilli bufOnes 20 (by decide) (by decide) (by decide)⟩

theorem bloom_add_badArgs (b : Option bloom) (buffer : Option (List UChar)) (len : Int)
    (h : badArgs b buffer len) : bloom_add b buffer len = some (-1, b) := by
  unfold bloom_add
  rcases h with rfl | ⟨s, rfl, hs⟩ | rfl | hlen
  · rfl
  · cases buffer <;> simp [hs]
  · cases b <;> rfl
  · cases b with
    | none => rfl
    | some s =>
      cases buffer with
      | none => rfl
      | some buf => cases hbf : s.bf <;> simp [hbf, hlen]

theorem bloom_check_badArgs (b : Option bloom) (buffer : Option (List UChar)) (len : Int)
    (h : badArgs b buffer len) : bloom_check b buffer len = some (-1, b) := by
  unfold bloom_check
  rcases h with rfl | ⟨s, rfl, hs⟩ | rfl | hlen
  · rfl
  · cases buffer <;> simp [hs]
  · cases b <;> rfl
  · cases b with
    | none => rfl
    | some s =>
      cases buffer with
      | none => rfl
      | some buf => cases hbf : s.bf <;> simp [hbf, hlen]

theorem goodArgs_cases (b : Option bloom) (buffer : Option (List UChar)) (len : Int)
    (h : ¬ badArgs b buffer len) :
    ∃ s buf, b = some s ∧ buffer = some buf ∧ s.bf ≠ none ∧ 0 < len := by
  unfold badArgs at h
  push_neg at h
  obtain ⟨hb, hs, hbuf, hlen⟩ := h
  cases b with
  | none => exact absurd rfl hb
  | some s =>
    cases buffer with
    | none => exact absurd rfl hbuf
    | some buf => exact ⟨s, buf, rfl, rfl, hs s rfl, hlen⟩

/-- C3 — `bloom_add` and `bloom_check` return the error value -1 (which is neither 0 nor 1)
exactly when the filter is null, its bit field is null, the buffer is null or the length is
not positive, and they leave the filter as it was; in every other case, on an initialised
filter, `bloom_add` returns 0 and `bloom_check` returns 0 or 1. -/
theorem bloom_error_result (b : Option bloom) (buffer : Option (List UChar)) (len : Int)
    (hwf : ∀ s, b = some s → s.bf ≠ none → s.wf)
    (hbuf : ∀ buf, buffer = some buf → len ≤ (buf.length : Int)) :
    ((-1 : Int) ≠ 0 ∧ (-1 : Int) ≠ 1) ∧
    (badArgs b buffer len →
      bloom_add b buffer len = some (-1, b) ∧ bloom_check b buffer len = some (-1, b)) ∧
    (¬ badArgs b buffer len →
      (∃ s1, bloom_add b buffer len = some (0, some s1)) ∧
      (bloom_check b buffer len = some (0, b) ∨ bloom_check b buffer len = some (1, b))) ∧
    ((bloom_add b buffer len).map Prod.fst = some (-1) ↔ badArgs b buffer len) ∧
    ((bloom_check b buffer len).map Prod.fst = some (-1) ↔ badArgs b buffer len) := by
  have hgood : ¬ badArgs b buffer len →
      (∃ s1, bloom_add b buffer len = some (0, some s1)) ∧
      (bloom_check b buffer len = some (0, b) ∨ bloom_check b buffer len = some (1, b)) := by
    intro h
    obtain ⟨s, buf, rfl, rfl, hs, hlen⟩ := goodArgs_cases b buffer len h
    have hw := hwf s rfl hs
    obtain ⟨_, bf1, _, hadd, _, _⟩ := bloom_add_spec s buf len hw hlen (hbuf buf rfl)
    obtain ⟨_, _, h1 | h0⟩ := bloom_check_spec s buf len hw hlen (hbuf buf rfl)
    · exact ⟨⟨_, hadd⟩, Or.inr h1.1⟩
    · exact ⟨⟨_, hadd⟩, Or.inl h0.1⟩
  refine ⟨⟨by decide, by decide⟩,
    fun h => ⟨bloom_add_badArgs b buffer len h, bloom_check_badArgs b buffer len h⟩,
    hgood, ?_, ?_⟩
  · constructor
    · intro h
      by_contra hbad
      obtain ⟨⟨s1, hadd⟩, _⟩ := hgood hbad
      rw [hadd] at h
      simp at h
    · intro h
      rw [bloom_add_badArgs b buffer len h]
      rfl
  · constructor
    · intro h
      by_contra hbad
      obtain ⟨_, h0 | h1⟩ := hgood hbad
      · rw [h0] at h
        simp at h
      · rw [h1] at h
        simp at h
    · intro h
      rw [bloom_check_badArgs b buffer len h]
      rfl

/-- Witness of C3: the filter of one entry at error 0.001 and the buffer of twenty `0x01`,
a call with valid arguments. -/
theorem bloom_error_result_witness :
    filterOneMilli.wf ∧ (20 : Int) ≤ (bufOnes.length : Int) ∧
    ¬ badArgs (some filterOneMilli) (some bufOnes) 20 ∧
    ((bloom_add (some filterOneMilli) (some bufOnes) 20).map Prod.fst = some (-1) ↔
      badArgs (some filterOneMilli) (some bufOnes) 20) ∧
    ((bloom_check (some filterOneMilli) (some bufOnes) 20).map Prod.fst = some (-1) ↔
      badArgs (some filterOneMilli) (some bufOnes) 20) :=
  ⟨by decide, by decide, by simp [badArgs, filterOneMilli],
    (bloom_error_result (some filterOneMilli) (some bufOnes) 20
      (fun s hs _ => by cases hs; decide)
      (fun buf hbuf => by cases hbuf; decide)).2.2.2⟩

/-- C4, as stated, fails: with `entries = 0` the call is accepted, whether the error rate is
valid (0.5) or not (0.0, replaced by 0.001); it returns 0 and allocates a one-byte field. -/
theorem bloom_init_zero_entries_accepted :
    bloom_init libmOneMilli true (some zeroBloom) 0 Double.half =
      (0, some { entries := 0, error := Double.half, bits := 8, bytes := 1, hashes := 1,
                 bf := some [0] }) ∧
    bloom_init libmOneMilli true (some zeroBloom) 0 Double.zero =
      (0, some { entries := 0, error := Double.milli, bits := 8, bytes := 1, hashes := 1,
                 bf := some [0] }) := by
  decide

/-- C4, amended — `bloom_init` returns -1 and leaves the filter without a bit field whenever
`entries < 0`, or `entries > 0` and the error rate is `<= 0` or `>= 1` (a null filter gives -1
as well); with `entries = 0` it builds the minimal filter of 8 bits, 1 byte and 1 hash instead,
whatever the error rate, and returns 0 when the allocation succeeds. -/
theorem bloom_init_rejects_invalid (fp : Libm) (allocOk : Bool) (s : bloom) (entries : Int)
    (error : Double)
    (h : entries < 0 ∨ (0 < entries ∧
      (Double.le error Double.zero = true ∨ Double.ge error Double.one = true))) :
    bloom_init fp allocOk (some s) entries error = (-1, some { s with bf := none }) ∧
    bloom_init fp allocOk none entries error = (-1, none) ∧
    ∀ e : Double, bloom_init fp true (some s) 0 e =
      (0, some { entries := 0, error := if Double.gt e Double.zero then e else Double.milli,
                 bits := 8, bytes := 1, hashes := 1, bf := some [0] }) := by
  refine ⟨?_, rfl, fun e => ?_⟩
  · have hne : entries ≠ 0 := by omega
    have hguard : (decide (entries ≤ 0) || Double.le error Double.zero ||
        Double.ge error Double.one) = true := by
      rcases h with h | ⟨_, h | h⟩
      · simp [show entries ≤ 0 by omega]
      · simp [h]
      · simp [h]
    simp only [bloom_init, hguard, if_true, if_neg hne]
  · rfl

/-- Witness of C4, amended: 1000 entries at the error rate 1.0. -/
theorem bloom_init_rejects_invalid_witness :
    ((1000 : Int) < 0 ∨ ((0 : Int) < 1000 ∧
      (Double.le Double.one Double.zero = true ∨ Double.ge Double.one Double.one = true))) ∧
    bloom_init libmOneMilli true (some zeroBloom) 1000 Double.one =
      (-1, some { zeroBloom with bf := none }) :=
  ⟨by decide,
    (bloom_init_rejects_invalid libmOneMilli true zeroBloom 1000 Double.one (by decide)).1⟩

theorem bloom_init_alloc_ok (allocOk : Bool) (t : bloom) (h1 : 1 ≤ t.bits)
    (h2 : t.bits < 2 ^ 63) (hret : (bloom_init_alloc allocOk t).1 = 0) :
    (bloom_init_alloc allocOk t).2 =
      some { t with bytes := (t.bits + 7) / 8,
                    bf := some (List.replicate ((t.bits + 7) / 8).toNat 0) } := by
  cases allocOk with
  | false => simp [bloom_init_alloc] at hret
  | true =>
    have hdiv : Int.tdiv (t.bits + (CHAR_BIT : Int) - 1) (CHAR_BIT : Int) = (t.bits + 7) / 8 := by
      have h : t.bits + (CHAR_BIT : Int) - 1 = t.bits + 7 := by
        simp only [CHAR_BIT]
        omega
      rw [h, Int.tdiv_eq_ediv (by omega) (by simp [CHAR_BIT])]
      rfl
    have hsize : toU64 ((t.bits + 7) / 8) = ((t.bits + 7) / 8).toNat := by
      unfold toU64
      rw [Int.emod_eq_of_lt (by omega) (by omega)]
    simp only [bloom_init_alloc, if_true, hdiv, hsize]

theorem clamp_pos (x : Int) (hx : 0 ≤ x) : 1 ≤ (if x = 0 then 1 else x) := by
  split <;> omega

theorem bloom_init_ok (fp : Libm) (hfp : fp.inRange) (allocOk : Bool) (b0 : Option bloom)
    (entries : Int) (error : Double)
    (hret : (bloom_init fp allocOk b0 entries error).1 = 0) :
    ∃ t : bloom, 1 ≤ t.bits ∧ t.bits < 2 ^ 63 ∧ 1 ≤ t.hashes ∧
      (bloom_init fp allocOk b0 entries error).2 =
        some { t with bytes := (t.bits + 7) / 8,
                      bf := some (List.replicate ((t.bits + 7) / 8).toNat 0) } := by
  cases b0 with
  | none => simp [bloom_init] at hret
  | some s =>
    by_cases hguard : (decide (entries ≤ 0) || Double.le error Double.zero ||
        Double.ge error Double.one) = true
    · by_cases he : entries = 0
      · simp only [bloom_init, hguard, if_true, if_pos he] at hret ⊢
        exact ⟨_, by norm_num, by norm_num, by norm_num,
          bloom_init_alloc_ok allocOk _ (by norm_num) (by norm_num) hret⟩
      · simp [bloom_init, hguard, he] at hret
    · simp only [bloom_init, hguard] at hret ⊢
      simp only [Bool.or_eq_true, decide_eq_true_eq, not_or, Bool.not_eq_true] at hguard
      obtain ⟨⟨hpos, hle⟩, hge⟩ := hguard
      obtain ⟨hb0, hb1, hh⟩ := hfp entries error (by omega) hle hge
      have hbits : 1 ≤ (if fp.bitsOf entries error = 0 then 1 else fp.bitsOf entries error) := by
        split <;> omega
      have hbits2 : (if fp.bitsOf entries error = 0 then 1 else fp.bitsOf entries error)
          < 2 ^ 63 := by
        split <;> omega
      exact ⟨_, hbits, hbits2, clamp_pos _ hh, bloom_init_alloc_ok allocOk _ hbits hbits2 hret⟩

theorem bloom_init_wf (fp : Libm) (hfp : fp.inRange) (allocOk : Bool) (b0 : Option bloom)
    (entries : Int) (error : Double)
    (hret : (bloom_init fp allocOk b0 entries error).1 = 0) :
    ∃ s, (bloom_init fp allocOk b0 entries error).2 = some s ∧ s.wf ∧
      s.bf = some (List.replicate s.bytes.toNat 0) := by
  obtain ⟨t, h1, h2, h3, hres⟩ := bloom_init_ok fp hfp allocOk b0 entries error hret
  refine ⟨_, hres, ⟨h1, h2, rfl, h3, ?_⟩, rfl⟩
  simp only [Option.map_some', List.length_replicate, Option.some.injEq]
  omega

theorem bloom_check_any (s : bloom) (buffer : Option (List UChar)) (len : Int) (hwf : s.wf)
    (hb : ∀ buf, buffer = some buf → len ≤ (buf.length : Int)) :
    ∃ r, bloom_check (some s) buffer len = some (r, some s) := by
  by_cases hbad : badArgs (some s) buffer len
  · exact ⟨-1, bloom_check_badArgs (some s) buffer len hbad⟩
  · obtain ⟨s0, buf, hs, rfl, _, hlen⟩ := goodArgs_cases (some s) buffer len hbad
    cases hs
    obtain ⟨_, _, h | h⟩ := bloom_check_spec s buf len hwf hlen (hb buf rfl)
    · exact ⟨1, h.1⟩
    · exact ⟨0, h.1⟩

/-- C6 — after a call of `bloom_init` that returns 0 (the minimal filter of `entries = 0`
included), `bits ≥ 1`, `bytes = ceil(bits / 8)`, `hashes ≥ 1`, and the bit field has exactly
`bytes` bytes, all zero; every later run of `bloom_add` calls keeps `entries`, `error`, `bits`,
`bytes`, `hashes` and the length of the bit field, and every `bloom_check` leaves the filter
as it is. The floating-point sizing is assumed to give no negative count (`Libm.inRange`). -/
theorem bloom_init_invariant (fp : Libm) (hfp : fp.inRange) (allocOk : Bool)
    (b0 : Option bloom) (entries : Int) (error : Double)
    (hret : (bloom_init fp allocOk b0 entries error).1 = 0) :
    ∃ s bf, (bloom_init fp allocOk b0 entries error).2 = some s ∧ s.bf = some bf ∧
      1 ≤ s.bits ∧ (8 * (s.bytes - 1) < s.bits ∧ s.bits ≤ 8 * s.bytes) ∧ 1 ≤ s.hashes ∧
      (bf.length : Int) = s.bytes ∧ (∀ x ∈ bf, x = 0) ∧
      ∀ calls, callsInBounds calls →
        ∃ s1, bloom_add_seq (some s) calls = some (some s1) ∧ s.sameShape s1 ∧
          ∀ buffer len, (∀ buf, buffer = some buf → len ≤ (buf.length : Int)) →
            ∃ r, bloom_check (some s1) buffer len = some (r, some s1) := by
  obtain ⟨s, hs, hwf, hbf⟩ := bloom_init_wf fp hfp allocOk b0 entries error hret
  obtain ⟨bf, hbf1, hlen⟩ := wf_bf s hwf
  have hw := hwf
  obtain ⟨h1, _, h3, h4, _⟩ := hw
  refine ⟨s, bf, hs, hbf1, h1, ⟨by omega, by omega⟩, h4, hlen, ?_, ?_⟩
  · intro x hx
    rw [hbf] at hbf1
    cases hbf1
    exact List.eq_of_mem_replicate hx
  · intro calls hin
    obtain ⟨s1, hseq, hwf1, hshape, _⟩ := bloom_add_seq_any calls s hwf hin
    exact ⟨s1, hseq, hshape, fun buffer len hb => bloom_check_any s1 buffer len hwf1 hb⟩

theorem libmOneMilli_inRange : libmOneMilli.inRange := by
  intro entries error _ _ _
  simp [libmOneMilli]

/-- Witness of C6: one entry at the error rate 0.001, on a zeroed struct, the allocation
succeeding. -/
theorem bloom_init_invariant_witness :
    libmOneMilli.inRange ∧
    (bloom_init libmOneMilli true (some zeroBloom) 1 Double.milli).1 = 0 ∧
    ∃ s bf, (bloom_init libmOneMilli true (some zeroBloom) 1 Double.milli).2 = some s ∧
      s.bf = some bf ∧
      1 ≤ s.bits ∧ (8 * (s.bytes - 1) < s.bits ∧ s.bits ≤ 8 * s.bytes) ∧ 1 ≤ s.hashes ∧
      (bf.length : Int) = s.bytes ∧ (∀ x ∈ bf, x = 0) ∧
      ∀ calls, callsInBounds calls →
        ∃ s1, bloom_add_seq (some s) calls = some (some s1) ∧ s.sameShape s1 ∧
          ∀ buffer len, (∀ buf, buffer = some buf → len ≤ (buf.length : Int)) →
            ∃ r, bloom_check (some s1) buffer len = some (r, some s1) :=
  ⟨libmOneMilli_inRange, by decide,
    bloom_init_invariant libmOneMilli libmOneMilli_inRange true (some zeroBloom) 1 Double.milli
      (by decide)⟩

theorem readBytes_length (buf : List UChar) : readBytes buf (buf.length : Int) = buf := by
  unfold readBytes
  rw [Int.toNat_natCast, List.take_length]

theorem fold_mul_lt (l : List UChar) : ∀ h : Nat, h < 2 ^ 64 →
    l.foldl (fun h c => (h * 65599 + c.val) % 2 ^ 64) h < 2 ^ 64 := by
  induction l with
  | nil => intro h hh; exact hh
  | cons c l ih =>
    intro h _
    rw [List.foldl_cons]
    exact ih _ (Nat.mod_lt _ (by norm_num))

/-- C7 — for every byte buffer, `djb2_hash` returns HashA, the left fold of
`h ↦ (h * 33 + byte) mod 2^64` over the bytes from the seed 5381; the shift form of the code,
`((h << 5) + h) + byte` on 64 bits, is `(h * 33 + byte) mod 2^64`, and the empty buffer hashes
to 5381. -/
theorem djb2_hash_refines (buf : List UChar) :
    djb2_hash buf (buf.length : Int) = some (HashA buf) ∧
    (∀ (h : Nat) (c : UChar), djb2_step h c = (h * 33 + c.val) % 2 ^ 64) ∧
    djb2_hash [] 0 = some 5381 := by
  refine ⟨?_, djb2_step_eq, rfl⟩
  rw [djb2_hash_eq buf (buf.length : Int) (le_refl _), readBytes_length]

/-- C8 — for every byte buffer, `sdbm_hash` returns HashB, the left fold of
`h ↦ (byte + (h << 6) + (h << 16) - h) mod 2^64` over the bytes from the seed 0, which is the
fold of `h ↦ (h * 65599 + byte) mod 2^64`; each round of the code, subtraction included, gives
that value and stays below `2^64`. -/
theorem sdbm_hash_refines (buf : List UChar) :
    sdbm_hash buf (buf.length : Int) = some (HashB buf) ∧
    HashB buf = HashB_mul buf ∧
    (∀ (h : Nat) (c : UChar),
      sdbm_step h c =
        (((c.val : Int) + (h : Int) * 2 ^ 6 + (h : Int) * 2 ^ 16 - (h : Int)) % 2 ^ 64).toNat ∧
      sdbm_step h c = (h * 65599 + c.val) % 2 ^ 64 ∧
      sdbm_step h c < 2 ^ 64) ∧
    HashB buf < 2 ^ 64 := by
  refine ⟨?_, HashB_eq_mul buf, fun h c => ⟨?_, sdbm_step_eq h c, ?_⟩, ?_⟩
  · rw [sdbm_hash_eq buf (buf.length : Int) (le_refl _), readBytes_length]
  · rw [sdbm_step_eq, HashB_step_eq]
  · rw [sdbm_step_eq]
    exact Nat.mod_lt _ (by norm_num)
  · rw [HashB_eq_mul]
    exact fold_mul_lt buf 0 (by norm_num)

/-- C9, as stated, fails: for the buffer of twenty `0x01` on the filter of 15 bits and 11
hashes, round 1 uses index 8 where `(HashA + 1 * HashB) mod 15` is 9, and after `bloom_add`
the bit at `(HashA + 10 * HashB) mod 15 = 3` is not set: the sum wraps at `2^64` first. -/
theorem nth_hash_wraps_before_mod :
    djb2_hash bufOnes 20 = some 18336716229799436633 ∧
    sdbm_hash bufOnes 20 = some 189351861784437376 ∧
    HashA bufOnes = 18336716229799436633 ∧ HashB bufOnes = 189351861784437376 ∧
    nth_hash 1 18336716229799436633 189351861784437376 (toU64 filterOneMilli.bits) = some 8 ∧
    (HashA bufOnes + 1 * HashB bufOnes) % filterOneMilli.bits.toNat = 9 ∧
    bloom_add (some filterOneMilli) (some bufOnes) 20 =
      some (0, some { filterOneMilli with bf := some [7, 127] }) ∧
    (HashA bufOnes + 10 * HashB bufOnes) % filterOneMilli.bits.toNat = 3 ∧
    bitIsSet [7, 127] 3 = false := by
  refine ⟨by rfl, by rfl, by rfl, by rfl, by rfl, by rfl, by rfl, by rfl, by rfl⟩

/-- C9, amended — on an initialised filter and a non-empty buffer, the bit index of round
`i` in `[0, hashes)` is `((HashA + i * HashB) mod 2^64) mod bits`, the sum and the product being
taken with 64-bit wraparound before the reduction modulo `bits`; `bloom_add` sets exactly the
bits at these indices and `bloom_check` tests exactly the bits at these indices. -/
theorem nth_hash_index (s : bloom) (buf : List UChar) (len : Int) (hwf : s.wf)
    (hlen : 0 < len) (hbuf : len ≤ (buf.length : Int)) :
    ∃ bf hash_a hash_b, s.bf = some bf ∧
      djb2_hash buf len = some hash_a ∧ sdbm_hash buf len = some hash_b ∧
      hash_a = HashA (readBytes buf len) ∧ hash_b = HashB (readBytes buf len) ∧
      (∀ i : Nat, (i : Int) < s.hashes →
        nth_hash (i : Int) hash_a hash_b (toU64 s.bits) =
          some ((hash_a + i * hash_b) % 2 ^ 64 % s.bits.toNat)) ∧
      (∃ bf1, bloom_add (some s) (some buf) len = some (0, some { s with bf := some bf1 }) ∧
        ∀ j, bitIsSet bf1 j = true ↔
          (bitIsSet bf j = true ∨
            ∃ i : Nat, (i : Int) < s.hashes ∧ j = (hash_a + i * hash_b) % 2 ^ 64 % s.bits.toNat)) ∧
      (bloom_check (some s) (some buf) len = some (1, some s) ↔
        ∀ i : Nat, (i : Int) < s.hashes →
          bitIsSet bf ((hash_a + i * hash_b) % 2 ^ 64 % s.bits.toNat) = true) := by
  have hb1 := hwf.1
  have hb2 : s.bits < 2 ^ 64 := by have := hwf.2.1; omega
  obtain ⟨bf, bf1, hbf, hadd, _, hbits⟩ := bloom_add_spec s buf len hwf hlen hbuf
  obtain ⟨bf0, hbf0, hcases⟩ := bloom_check_spec s buf len hwf hlen hbuf
  rw [hbf] at hbf0
  cases hbf0
  refine ⟨bf, _, _, hbf, djb2_hash_eq buf len hbuf, sdbm_hash_eq buf len hbuf, rfl, rfl,
    fun i _ => nth_hash_eq i _ _ s.bits hb1 hb2, ⟨bf1, hadd, fun j => ?_⟩, ?_⟩
  · rw [hbits j]
    constructor
    · rintro (h | ⟨t, ht, hj⟩)
      · exact Or.inl h
      · exact Or.inr ⟨t, by omega, hj⟩
    · rintro (h | ⟨t, ht, hj⟩)
      · exact Or.inl h
      · exact Or.inr ⟨t, by omega, hj⟩
  · rcases hcases with ⟨h1, hall⟩ | ⟨h0, t, ht, hf⟩
    · exact ⟨fun _ i hi => hall i (by omega), fun _ => h1⟩
    · constructor
      · intro h1
        rw [h1] at h0
        simp at h0
      · intro hall
        have := hall t (by omega)
        unfold bitIndex at hf
        rw [this] at hf
        exact Bool.noConfusion hf

/-- Witness of C9, amended: the filter of one entry at error 0.001 and the buffer of twenty
`0x01`. -/
theorem nth_hash_index_witness :
    filterOneMilli.wf ∧ (0 : Int) < 20 ∧ (20 : Int) ≤ (bufOnes.length : Int) ∧
    ∃ bf hash_a hash_b, filterOneMilli.bf = some bf ∧
      djb2_hash bufOnes 20 = some hash_a ∧ sdbm_hash bufOnes 20 = some hash_b ∧
      hash_a = HashA (readBytes bufOnes 20) ∧ hash_b = HashB (readBytes bufOnes 20) ∧
      (∀ i : Nat, (i : Int) < filterOneMilli.hashes →
        nth_hash (i : Int) hash_a hash_b (toU64 filterOneMilli.bits) =
          some ((hash_a + i * hash_b) % 2 ^ 64 % filterOneMilli.bits.toNat)) ∧
      (∃ bf1, bloom_add (some filterOneMilli) (some bufOnes) 20 =
          some (0, some { filterOneMilli with bf := some bf1 }) ∧
        ∀ j, bitIsSet bf1 j = true ↔
          (bitIsSet bf j = true ∨
            ∃ i : Nat, (i : Int) < filterOneMilli.hashes ∧
              j = (hash_a + i * hash_b) % 2 ^ 64 % filterOneMilli.bits.toNat)) ∧
      (bloom_check (some filterOneMilli) (some bufOnes) 20 = some (1, some filterOneMilli) ↔
        ∀ i : Nat, (i : Int) < filterOneMilli.hashes →
          bitIsSet bf ((hash_a + i * hash_b) % 2 ^ 64 % filterOneMilli.bits.toNat) = true) :=
  ⟨by decide, by decide, by decide,
    nth_hash_index filterOneMilli bufOnes 20 (by decide) (by decide) (by decide)⟩

/-- C10 — bits are set-only: any `bloom_add` call on an initialised filter keeps every bit
that was set, so a buffer for which `bloom_check` returned 1 before the call still gets 1
after it; `bloom_check` leaves the filter as it is, and `bloom_free` drops the bit field. -/
theorem bloom_add_set_only (s : bloom) (buffer : Option (List UChar)) (len : Int)
    (hwf : s.wf) (hb : ∀ buf, buffer = some buf → len ≤ (buf.length : Int)) :
    ∃ r s1 bf bf1, bloom_add (some s) buffer len = some (r, some s1) ∧
      s.bf = some bf ∧ s1.bf = some bf1 ∧
      (∀ j, bitIsSet bf j = true → bitIsSet bf1 j = true) ∧
      (∀ (buf2 : List UChar) (len2 : Int), 0 < len2 → len2 ≤ (buf2.length : Int) →
        bloom_check (some s) (some buf2) len2 = some (1, some s) →
        bloom_check (some s1) (some buf2) len2 = some (1, some s1)) ∧
      (∀ (buffer2 : Option (List UChar)) (len2 : Int),
        (∀ buf, buffer2 = some buf → len2 ≤ (buf.length : Int)) →
        ∃ r2, bloom_check (some s1) buffer2 len2 = some (r2, some s1)) ∧
      ∃ t, bloom_free (some s1) = some t ∧ t.bf = none := by
  obtain ⟨r, s1, hadd, hwf1, hshape, hkept⟩ := bloom_add_any s buffer len hwf hb
  obtain ⟨bf, hbf, _⟩ := wf_bf s hwf
  obtain ⟨bf1, hbf1, hk⟩ := hkept bf hbf
  exact ⟨r, s1, bf, bf1, hadd, hbf, hbf1, hk,
    fun buf2 len2 hl2 hb2 h => bloom_check_mono s s1 hwf hwf1 hshape hkept buf2 len2 hl2 hb2 h,
    fun buffer2 len2 hb2 => bloom_check_any s1 buffer2 len2 hwf1 hb2,
    ⟨_, rfl, rfl⟩⟩

/-- Witness of C10: the filter of one entry at error 0.001 with the bits of the buffer of
twenty `0x01` set, and a call adding the buffer of twenty `0x02`. -/
theorem bloom_add_set_only_witness :
    ({ filterOneMilli with bf := some [7, 127] } : bloom).wf ∧
    bloom_check (some { filterOneMilli with bf := some [7, 127] }) (some bufOnes) 20 =
      some (1, some { filterOneMilli with bf := some [7, 127] }) ∧
    ∃ r s1 bf bf1,
      bloom_add (some { filterOneMilli with bf := some [7, 127] })
        (some (List.replicate 20 2)) 20 = some (r, some s1) ∧
      ({ filterOneMilli with bf := some [7, 127] } : bloom).bf = some bf ∧ s1.bf = some bf1 ∧
      (∀ j, bitIsSet bf j = true → bitIsSet bf1 j = true) ∧
      (∀ (buf2 : List UChar) (len2 : Int), 0 < len2 → len2 ≤ (buf2.length : Int) →
        bloom_check (some { filterOneMilli with bf := some [7, 127] }) (some buf2) len2 =
          some (1, some { filterOneMilli with bf := some [7, 127] }) →
        bloom_check (some s1) (some buf2) len2 = some (1, some s1)) ∧
      (∀ (buffer2 : Option (List UChar)) (len2 : Int),
        (∀ buf, buffer2 = some buf → len2 ≤ (buf.length : Int)) →
        ∃ r2, bloom_check (some s1) buffer2 len2 = some (r2, some s1)) ∧
      ∃ t, bloom_free (some s1) = some t ∧ t.bf = none :=
  ⟨by decide, by rfl,
    bloom_add_set_only { filterOneMilli with bf := some [7, 127] }
      (some (List.replicate 20 2)) 20 (by decide) (fun buf hbuf => by cases hbuf; decide)⟩

/-! ## Lemmas on `initialize_bloom_filter` -/

theorem bloom_check_congr (b : Option bloom) (buf1 buf2 : List UChar) (len : Int)
    (h1 : len ≤ (buf1.length : Int)) (h2 : len ≤ (buf2.length : Int))
    (heq : readBytes buf1 len = readBytes buf2 len) :
    bloom_check b (some buf1) len = bloom_check b (some buf2) len := by
  cases b with
  | none => rfl
  | some s =>
    simp only [bloom_check, djb2_hash_eq buf1 len h1, sdbm_hash_eq buf1 len h1,
      djb2_hash_eq buf2 len h2, sdbm_hash_eq buf2 len h2, heq]

theorem addressHash_read (d : Decoded) (hlen : d.buffer.length = 32) :
    (20 : Int) ≤ ((d.buffer.drop 1).length : Int) ∧
    (20 : Int) ≤ (d.addressHash.length : Int) ∧
    readBytes (d.buffer.drop 1) 20 = readBytes d.addressHash 20 := by
  have hdrop : (d.buffer.drop 1).length = 31 := by rw [List.length_drop, hlen]
  have htake : d.addressHash.length = 20 := by
    unfold Decoded.addressHash
    rw [List.length_take, hdrop]
    rfl
  refine ⟨by rw [hdrop]; decide, by rw [htake]; decide, ?_⟩
  unfold readBytes Decoded.addressHash
  rw [List.take_take]
  rfl

theorem initialize_loop_spec (dec : Decoder) (hdec : dec.keepsBuffer)
    (targets : List (List UChar)) : ∀ (buffer : List UChar) (filter : bloom) (added : Int),
    filter.wf →
    ∃ filter1,
      initialize_loop dec targets buffer filter added =
        some (filter1,
          added + (((decodeTrace dec targets buffer).filter Decoded.good).length : Int)) ∧
      filter1.wf ∧ filter.sameShape filter1 ∧ filter.bitsKept filter1 ∧
      bloom_add_seq (some filter)
        (((decodeTrace dec targets buffer).filter Decoded.good).map Decoded.addCall)
          = some (some filter1) ∧
      ∀ d ∈ decodeTrace dec targets buffer, d.good = true →
        bloom_check (some filter1) (some d.addressHash) 20 = some (1, some filter1) := by
  induction targets with
  | nil =>
    intro buffer filter added hwf
    refine ⟨filter, ?_, hwf, sameShape_refl filter, bitsKept_refl filter, rfl, ?_⟩
    · simp [initialize_loop, decodeTrace]
    · intro d hd
      simp [decodeTrace] at hd
  | cons a rest ih =>
    intro buffer filter added hwf
    by_cases hgood : (dec buffer a).good = true
    · have hok : (dec buffer a).ok = true := by
        unfold Decoded.good at hgood
        simp only [Bool.and_eq_true, decide_eq_true_eq] at hgood
        exact hgood.1
      have hsize : (dec buffer a).size = 25 := by
        unfold Decoded.good at hgood
        simp only [Bool.and_eq_true, decide_eq_true_eq] at hgood
        exact hgood.2
      obtain ⟨hb1, hb2, hread⟩ := addressHash_read (dec buffer a) (hdec buffer a)
      obtain ⟨s1, hadd, hwf1, hshape1, hchk1⟩ :=
        bloom_check_after_add filter ((dec buffer a).buffer.drop 1) 20 hwf (by decide) hb1
      obtain ⟨r, s1x, haddx, _, _, hkept1⟩ :=
        bloom_add_any filter (some ((dec buffer a).buffer.drop 1)) 20 hwf
          (fun buf hbuf => by cases hbuf; exact hb1)
      rw [hadd] at haddx
      cases haddx
      obtain ⟨filter1, hloop, hwf2, hshape2, hkept2, hseq, hall⟩ :=
        ih (dec buffer a).buffer s1 (added + 1) hwf1
      refine ⟨filter1, ?_, hwf2, sameShape_trans filter s1 filter1 hshape1 hshape2,
        bitsKept_trans filter s1 filter1 hkept1 hkept2, ?_, ?_⟩
      · rw [initialize_loop]
        simp only [hok, hsize, hadd, Option.getD_some, if_true, Bool.true_eq_false, if_false]
        rw [hloop]
        simp only [decodeTrace, List.filter_cons, hgood, if_true, List.length_cons]
        congr 2
        push_cast
        omega
      · simp only [decodeTrace, List.filter_cons, hgood, if_true, List.map_cons, bloom_add_seq]
        simp only [Decoded.addCall, hadd]
        exact hseq
      · intro d hd hdg
        simp only [decodeTrace, List.mem_cons] at hd
        rcases hd with rfl | hd
        · rw [← bloom_check_congr (some filter1) _ _ 20 hb1 hb2 hread]
          exact bloom_check_mono s1 filter1 hwf1 hwf2 hshape2 hkept2 _ 20 (by decide) hb1 hchk1
        · exact hall d hd hdg
    · obtain ⟨filter1, hloop, hwf2, hshape2, hkept2, hseq, hall⟩ :=
        ih (dec buffer a).buffer filter added hwf
      have hstep : initialize_loop dec (a :: rest) buffer filter added =
          initialize_loop dec rest (dec buffer a).buffer filter added := by
        rw [initialize_loop]
        unfold Decoded.good at hgood
        simp only [Bool.and_eq_true, decide_eq_true_eq, not_and] at hgood
        cases hok : (dec buffer a).ok with
        | false => simp
        | true => simp [hgood hok]
      refine ⟨filter1, ?_, hwf2, hshape2, hkept2, ?_, ?_⟩
      · rw [hstep, hloop, decodeTrace, List.filter_cons_of_neg hgood]
      · rw [decodeTrace, List.filter_cons_of_neg hgood]
        exact hseq
      · intro d hd hdg
        simp only [decodeTrace, List.mem_cons] at hd
        rcases hd with rfl | hd
        · exact absurd hdg hgood
        · exact hall d hd hdg

theorem bloom_init_targets (fp : Libm) (allocOk : Bool) (s : bloom) (n : Nat) (hn : n ≠ 0) :
    bloom_init fp allocOk (some s) (n : Int) Double.milli =
      bloom_init_alloc allocOk
        { s with
          entries := (n : Int)
          error := Double.milli
          bits := if fp.bitsOf (n : Int) Double.milli = 0 then 1
            else fp.bitsOf (n : Int) Double.milli
          hashes :=
            if fp.hashesOf (if fp.bitsOf (n : Int) Double.milli = 0 then 1
                else fp.bitsOf (n : Int) Double.milli) (n : Int) = 0 then 1
            else fp.hashesOf (if fp.bitsOf (n : Int) Double.milli = 0 then 1
                else fp.bitsOf (n : Int) Double.milli) (n : Int) } := by
  have hpos : ¬ ((n : Int) ≤ 0) := by omega
  have hle : Double.le Double.milli Double.zero = false := by decide
  have hge : Double.ge Double.milli Double.one = false := by decide
  simp only [bloom_init, hle, hge, decide_eq_false hpos, Bool.or_self, Bool.false_eq_true,
    if_false]

theorem bloom_init_targets_fail (fp : Libm) (s : bloom) (n : Nat) (hn : n ≠ 0) :
    ∃ t, bloom_init fp false (some s) (n : Int) Double.milli = (-1, some t) ∧ t.bf = none := by
  rw [bloom_init_targets fp false s n hn]
  exact ⟨_, rfl, rfl⟩

theorem initialize_bloom_filter_spec (fp : Libm) (hfp : fp.inRange) (allocOk : Bool)
    (dec : Decoder) (hdec : dec.keepsBuffer) (buffer0 : List UChar)
    (targets : List (List UChar)) (g : Globals) :
    ∃ g1, initialize_bloom_filter fp allocOk dec buffer0 targets g = some g1 ∧
      g1.keep_going = g.keep_going ∧
      (g1.bloom_filter_enabled = true ↔
        (allocOk = true ∧ ∃ d ∈ decodeTrace dec targets buffer0, d.good = true)) ∧
      (g1.bloom_filter_enabled = false →
        g1.an_filter.bf = none ∨ (targets = [] ∧ g1.an_filter = g.an_filter)) ∧
      (g1.bloom_filter_enabled = true →
        g1.an_filter.wf ∧
        (∃ s0, bloom_init fp allocOk (some g.an_filter) (targets.length : Int) Double.milli
            = (0, some s0) ∧
          bloom_add_seq (some s0)
            (((decodeTrace dec targets buffer0).filter Decoded.good).map Decoded.addCall)
              = some (some g1.an_filter)) ∧
        ∀ d ∈ decodeTrace dec targets buffer0, d.good = true →
          bloom_check (some g1.an_filter) (some d.addressHash) 20
            = some (1, some g1.an_filter)) := by
  by_cases hlen : targets.length = 0
  · have hnil : targets = [] := List.length_eq_zero.mp hlen
    subst hnil
    refine ⟨{ g with bloom_filter_enabled := false }, by simp [initialize_bloom_filter], rfl,
      ?_, fun _ => Or.inr ⟨rfl, rfl⟩, ?_⟩
    · simp [decodeTrace]
    · intro h
      simp at h
  · cases allocOk with
    | false =>
      obtain ⟨t, hinit, ht⟩ := bloom_init_targets_fail fp g.an_filter targets.length hlen
      refine ⟨{ g with bloom_filter_enabled := false, an_filter := t }, ?_, rfl, ?_,
        fun _ => Or.inl ht, ?_⟩
      · simp [initialize_bloom_filter, hlen, hinit]
      · simp
      · intro h
        simp at h
    | true =>
      have hret : (bloom_init fp true (some g.an_filter) (targets.length : Int)
          Double.milli).1 = 0 := by
        rw [bloom_init_targets fp true g.an_filter targets.length hlen]
        rfl
      obtain ⟨s0, hs0, hwf0, _⟩ :=
        bloom_init_wf fp hfp true (some g.an_filter) (targets.length : Int) Double.milli hret
      have hinit : bloom_init fp true (some g.an_filter) (targets.length : Int) Double.milli
          = (0, some s0) := Prod.ext hret hs0
      obtain ⟨filter1, hloop, hwf1, _, _, hseq, hall⟩ :=
        initialize_loop_spec dec hdec targets buffer0 s0 0 hwf0
      by_cases hcount : ((decodeTrace dec targets buffer0).filter Decoded.good).length = 0
      · have hnone : ¬ ∃ d ∈ decodeTrace dec targets buffer0, d.good = true := by
          rintro ⟨d, hd, hdg⟩
          have hmem : d ∈ (decodeTrace dec targets buffer0).filter Decoded.good :=
            List.mem_filter.mpr ⟨hd, hdg⟩
          rw [List.length_eq_zero.mp hcount] at hmem
          exact absurd hmem (List.not_mem_nil d)
        refine ⟨{ g with bloom_filter_enabled := false,
                          an_filter := (bloom_free (some filter1)).getD filter1 }, ?_, rfl, ?_,
          fun _ => Or.inl rfl, ?_⟩
        · simp [initialize_bloom_filter, hlen, hinit, hloop, hcount]
        · simp [hnone]
        · intro h
          simp at h
      · have hsome : ∃ d ∈ decodeTrace dec targets buffer0, d.good = true := by
          obtain ⟨d, hd⟩ := List.exists_mem_of_length_pos (Nat.pos_of_ne_zero hcount)
          exact ⟨d, (List.mem_filter.mp hd).1, (List.mem_filter.mp hd).2⟩
        refine ⟨{ g with bloom_filter_enabled := true, an_filter := filter1 }, ?_, rfl, ?_,
          ?_, fun _ => ⟨hwf1, ⟨s0, hinit, hseq⟩, hall⟩⟩
        · have hpos : (0 : Int) <
              0 + (((decodeTrace dec targets buffer0).filter Decoded.good).length : Int) := by
            omega
          simp only [initialize_bloom_filter, hlen, hinit, hloop, if_false, ne_eq,
            not_true_eq_false, Option.getD_some, hpos, if_true]
        · simp [hsome]
        · intro h
          simp at h

/-! ## Lemmas on the layout of the bit field -/

theorem byte_ext (x y : UChar) (h : ∀ t, t < 8 → x.val.testBit t = y.val.testBit t) :
    x = y := by
  apply Fin.ext
  apply Nat.eq_of_testBit_eq
  intro t
  by_cases ht : t < 8
  · exact h t ht
  · have hpow : (2 : Nat) ^ 8 ≤ 2 ^ t := Nat.pow_le_pow_right (by norm_num) (by omega)
    have hx : x.val < 2 ^ t := Nat.lt_of_lt_of_le x.isLt hpow
    have hy : y.val < 2 ^ t := Nat.lt_of_lt_of_le y.isLt hpow
    rw [Nat.testBit_lt_two_pow hx, Nat.testBit_lt_two_pow hy]

theorem bitIsSet_byte (bf : List UChar) (k t : Nat) (ht : t < 8) (byte : UChar)
    (hk : bf[k]? = some byte) : bitIsSet bf (8 * k + t) = byte.val.testBit t := by
  rw [bitIsSet_eq]
  have h1 : (8 * k + t) / 8 = k := by omega
  have h2 : (8 * k + t) % 8 = t := by omega
  rw [h1, h2, hk]

theorem getElem?_of_bits (bf bf1 : List UChar) (hlen : bf1.length = bf.length) (k : Nat)
    (h : ∀ t, t < 8 → bitIsSet bf1 (8 * k + t) = bitIsSet bf (8 * k + t)) :
    bf1[k]? = bf[k]? := by
  by_cases hk : k < bf.length
  · have hk1 : k < bf1.length := by omega
    rw [List.getElem?_eq_getElem hk, List.getElem?_eq_getElem hk1]
    congr 1
    apply byte_ext
    intro t ht
    rw [← bitIsSet_byte bf1 k t ht _ (List.getElem?_eq_getElem hk1),
      ← bitIsSet_byte bf k t ht _ (List.getElem?_eq_getElem hk)]
    exact h t ht
  · rw [List.getElem?_eq_none (by omega), List.getElem?_eq_none (by omega)]

theorem bf_ext (bf bf1 : List UChar) (hlen : bf1.length = bf.length)
    (h : ∀ j, bitIsSet bf1 j = bitIsSet bf j) : bf1 = bf := by
  apply List.ext_getElem?
  intro k
  exact getElem?_of_bits bf bf1 hlen k (fun t _ => h (8 * k + t))

theorem bitIsSet_zeros (n j : Nat) : bitIsSet (List.replicate n (0 : UChar)) j = false := by
  rw [bitIsSet_eq, List.getElem?_replicate]
  by_cases h : j / 8 < n
  · rw [if_pos h]
    exact Nat.zero_testBit _
  · rw [if_neg h]

theorem bool_eq_of_iff (x y : Bool) (h : x = true ↔ y = true) : x = y := by
  cases x <;> cases y <;> simp_all

theorem rawDecoder_keepsBuffer : rawDecoder.keepsBuffer := by
  intro buffer address_str
  simp [rawDecoder]

/-- C12 — decode failures are recoverable: `initialize_bloom_filter` runs the decoder on
every address of the list, and the filter it leaves is the one of `bloom_init` with exactly
the targets that decoded to 25 bytes added, in order; the filter is reported enabled exactly
when at least one target was added, and when none was, the list is empty or `bloom_init`
failed, it is reported disabled and holds no bit field. -/
theorem initialize_bloom_filter_recovers (fp : Libm) (hfp : fp.inRange) (allocOk : Bool)
    (b58tobin : Decoder) (hdec : b58tobin.keepsBuffer) (buffer0 : List UChar)
    (targets : List (List UChar)) (g : Globals) (hg : g.an_filter.bf = none) :
    ∃ g1, initialize_bloom_filter fp allocOk b58tobin buffer0 targets g = some g1 ∧
      (decodeTrace b58tobin targets buffer0).length = targets.length ∧
      (g1.bloom_filter_enabled = true ↔
        (allocOk = true ∧ ∃ d ∈ decodeTrace b58tobin targets buffer0, d.good = true)) ∧
      (g1.bloom_filter_enabled = false → g1.an_filter.bf = none) ∧
      (g1.bloom_filter_enabled = true →
        ∃ s0, bloom_init fp allocOk (some g.an_filter) (targets.length : Int) Double.milli
            = (0, some s0) ∧
          bloom_add_seq (some s0)
            (((decodeTrace b58tobin targets buffer0).filter Decoded.good).map Decoded.addCall)
              = some (some g1.an_filter)) := by
  obtain ⟨g1, hinit, _, hiff, hdis, hen⟩ :=
    initialize_bloom_filter_spec fp hfp allocOk b58tobin hdec buffer0 targets g
  refine ⟨g1, hinit, ?_, hiff, fun h => ?_, fun h => (hen h).2.1⟩
  · have hlen : ∀ (ts : List (List UChar)) (buf : List UChar),
        (decodeTrace b58tobin ts buf).length = ts.length := by
      intro ts
      induction ts with
      | nil => intro buf; rfl
      | cons a rest ih => intro buf; simp only [decodeTrace, List.length_cons, ih]
    exact hlen targets buffer0
  · rcases hdis h with h1 | ⟨_, h2⟩
    · exact h1
    · rw [h2]
      exact hg

/-- Witness of C12: three targets on the globals of program start, the first failing to
decode, the second not of 25 bytes, the third a 25-byte payload. -/
theorem initialize_bloom_filter_recovers_witness :
    libmOneMilli.inRange ∧ rawDecoder.keepsBuffer ∧ startGlobals.an_filter.bf = none ∧
    ∃ g1, initialize_bloom_filter libmOneMilli true rawDecoder (List.replicate 32 0)
        [[0], [5, 1], 5 :: (bufOnes ++ [9, 9, 9, 9])] startGlobals = some g1 ∧
      (decodeTrace rawDecoder [[0], [5, 1], 5 :: (bufOnes ++ [9, 9, 9, 9])]
        (List.replicate 32 0)).length = 3 ∧
      g1.bloom_filter_enabled = true ∧ g1.an_filter.bf = some [7, 127] :=
  ⟨libmOneMilli_inRange, rawDecoder_keepsBuffer, rfl,
    (initialize_bloom_filter_recovers libmOneMilli libmOneMilli_inRange true rawDecoder
      rawDecoder_keepsBuffer (List.replicate 32 0)
      [[0], [5, 1], 5 :: (bufOnes ++ [9, 9, 9, 9])] startGlobals rfl).elim
      (fun g1 h => ⟨g1, h.1, h.2.1, by
        have hval : initialize_bloom_filter libmOneMilli true rawDecoder (List.replicate 32 0)
            [[0], [5, 1], 5 :: (bufOnes ++ [9, 9, 9, 9])] startGlobals =
            some { keep_going := false, bloom_filter_enabled := true,
                   an_filter := { filterOneMilli with entries := 3, bf := some [7, 127] } } := by
          rfl
        have hg1 := h.1
        rw [hval] at hg1
        cases hg1
        exact ⟨rfl, rfl⟩⟩)⟩

/-- C13 — the code at a hit in keep-going mode: with `keep_going` set and the filter enabled,
`announce_result` frees the filter all the same, the flag `bloom_filter_enabled` stays set,
and `bloom_check`, which answered 1 before the hit, answers the error value -1 after it. -/
theorem announce_result_frees_in_keep_going :
    keepGoingGlobals.keep_going = true ∧
    bloom_check (some keepGoingGlobals.an_filter) (some bufOnes) 20 =
      some (1, some keepGoingGlobals.an_filter) ∧
    announce_result 1 (List.replicate 52 0) keepGoingGlobals =
      { keep_going := true, bloom_filter_enabled := true, an_filter := zeroBloom } ∧
    bloom_check (some (announce_result 1 (List.replicate 52 0) keepGoingGlobals).an_filter)
      (some bufOnes) 20 = some (-1, some zeroBloom) := by
  refine ⟨by rfl, by rfl, by rfl, by rfl⟩

/-! ## Further properties of `bloom_add`, `bloom_check` and `bloom_free` -/

/-- C14 — exact effect and layout of `bloom_add` on an initialised filter and a non-empty
buffer: the scalar fields and the length of the bit field stay; a bit position is set
afterwards exactly when it was set before or is one of the `hashes` indices `nth_hash`
computes for the buffer; position `8 * k + t` is the bit of byte `k` under the mask `1 << t`;
and a byte that holds none of the indices is unchanged. -/
theorem bloom_add_exact (s : bloom) (buf : List UChar) (len : Int) (hwf : s.wf)
    (hlen : 0 < len) (hbuf : len ≤ (buf.length : Int)) :
    ∃ bf bf1 hash_a hash_b, s.bf = some bf ∧
      djb2_hash buf len = some hash_a ∧ sdbm_hash buf len = some hash_b ∧
      bloom_add (some s) (some buf) len =
        some (0, some { entries := s.entries, error := s.error, bits := s.bits,
                        bytes := s.bytes, hashes := s.hashes, bf := some bf1 }) ∧
      bf1.length = bf.length ∧
      (∀ j : Nat, bitIsSet bf1 j = true ↔
        (bitIsSet bf j = true ∨
          ∃ i : Nat, (i : Int) < s.hashes ∧
            nth_hash (i : Int) hash_a hash_b (toU64 s.bits) = some j)) ∧
      (∀ (k t : Nat) (byte1 : UChar), t < 8 → bf1[k]? = some byte1 →
        ∃ byte0, bf[k]? = some byte0 ∧
          (byte1.val &&& (1 <<< t) ≠ 0 ↔
            (byte0.val &&& (1 <<< t) ≠ 0 ∨
              ∃ i : Nat, (i : Int) < s.hashes ∧
                nth_hash (i : Int) hash_a hash_b (toU64 s.bits) = some (8 * k + t)))) ∧
      (∀ k : Nat,
        (∀ (i n : Nat), (i : Int) < s.hashes →
          nth_hash (i : Int) hash_a hash_b (toU64 s.bits) = some n → n / 8 ≠ k) →
        bf1[k]? = bf[k]?) := by
  have hb1 := hwf.1
  have hb2 : s.bits < 2 ^ 64 := by have := hwf.2.1; omega
  obtain ⟨bf, bf1, hbf, hadd, hl, hbits⟩ := bloom_add_spec s buf len hwf hlen hbuf
  have hset : ∀ j : Nat, bitIsSet bf1 j = true ↔
      (bitIsSet bf j = true ∨
        ∃ i : Nat, (i : Int) < s.hashes ∧
          nth_hash (i : Int) (HashA (readBytes buf len)) (HashB (readBytes buf len))
            (toU64 s.bits) = some j) := by
    intro j
    rw [hbits j]
    constructor
    · rintro (h | ⟨t, ht, hj⟩)
      · exact Or.inl h
      · exact Or.inr ⟨t, by omega, by rw [nth_hash_eq t _ _ s.bits hb1 hb2, hj]⟩
    · rintro (h | ⟨t, ht, hj⟩)
      · exact Or.inl h
      · rw [nth_hash_eq t _ _ s.bits hb1 hb2] at hj
        exact Or.inr ⟨t, by omega, (Option.some.inj hj).symm⟩
  refine ⟨bf, bf1, _, _, hbf, djb2_hash_eq buf len hbuf, sdbm_hash_eq buf len hbuf, hadd, hl,
    hset, ?_, ?_⟩
  · intro k t byte1 ht hk1
    have hklt : k < bf.length := by
      have := (List.getElem?_eq_some.mp hk1).1
      omega
    refine ⟨bf[k], List.getElem?_eq_getElem hklt, ?_⟩
    have e1 := bitIsSet_byte bf1 k t ht byte1 hk1
    have e0 := bitIsSet_byte bf k t ht bf[k] (List.getElem?_eq_getElem hklt)
    have m1 := and_shift_ne_zero byte1.val t
    have m0 := and_shift_ne_zero bf[k].val t
    have key := hset (8 * k + t)
    rw [e1, e0, ← m1, ← m0] at key
    simpa using key
  · intro k hk
    apply getElem?_of_bits bf bf1 hl k
    intro t ht
    apply bool_eq_of_iff
    rw [hset (8 * k + t)]
    constructor
    · rintro (h | ⟨i, hi, hn⟩)
      · exact h
      · exact absurd (by omega) (hk i (8 * k + t) hi hn)
    · exact fun h => Or.inl h

/-- Witness of C14: the empty filter of one entry at error 0.001 and the buffer of twenty
`0x01`; the indices fill the bits 0..2 and 8..14, the bytes 7 and 127. -/
theorem bloom_add_exact_witness :
    filterOneMilli.wf ∧ (0 : Int) < 20 ∧ (20 : Int) ≤ (bufOnes.length : Int) ∧
    bloom_add (some filterOneMilli) (some bufOnes) 20 =
      some (0, some { filterOneMilli with bf := some [7, 127] }) ∧
    ∃ bf bf1 hash_a hash_b, filterOneMilli.bf = some bf ∧
      djb2_hash bufOnes 20 = some hash_a ∧ sdbm_hash bufOnes 20 = some hash_b ∧
      bloom_add (some filterOneMilli) (some bufOnes) 20 =
        some (0, some { entries := filterOneMilli.entries, error := filterOneMilli.error,
                        bits := filterOneMilli.bits, bytes := filterOneMilli.bytes,
                        hashes := filterOneMilli.hashes, bf := some bf1 }) ∧
      bf1.length = bf.length ∧
      (∀ j : Nat, bitIsSet bf1 j = true ↔
        (bitIsSet bf j = true ∨
          ∃ i : Nat, (i : Int) < filterOneMilli.hashes ∧
            nth_hash (i : Int) hash_a hash_b (toU64 filterOneMilli.bits) = some j)) :=
  ⟨by decide, by decide, by decide, by rfl,
    (bloom_add_exact filterOneMilli bufOnes 20 (by decide) (by decide) (by decide)).elim
      (fun bf h1 => h1.elim (fun bf1 h2 => h2.elim (fun hash_a h3 => h3.elim
        (fun hash_b h => ⟨bf, bf1, hash_a, hash_b, h.1, h.2.1, h.2.2.1, h.2.2.2.1,
          h.2.2.2.2.1, h.2.2.2.2.2.1⟩))))⟩

theorem bloom_check_state (b : Option bloom) (buffer : Option (List UChar)) (len : Int)
    (res : Int × Option bloom) (h : bloom_check b buffer len = some res) : res.2 = b := by
  unfold bloom_check at h
  repeat' split at h
  all_goals first
    | (cases h; rfl)
    | exact Option.noConfusion h

/-- C15 — `bloom_check` is read-only and deterministic: whenever it returns, on any filter
state and any arguments, the filter it leaves is the filter it was given; two calls on the same
state with buffers of the same contents give the same result; and on an initialised filter it
does return. -/
theorem bloom_check_read_only (b : Option bloom) (buf1 buf2 : List UChar) (len : Int)
    (h1 : len ≤ (buf1.length : Int)) (h2 : len ≤ (buf2.length : Int))
    (heq : readBytes buf1 len = readBytes buf2 len) :
    (∀ (buffer : Option (List UChar)) (l : Int) (res : Int × Option bloom),
      bloom_check b buffer l = some res → res.2 = b) ∧
    bloom_check b (some buf1) len = bloom_check b (some buf2) len ∧
    (∀ s, b = some s → s.wf → ∃ r, bloom_check b (some buf1) len = some (r, b)) := by
  refine ⟨fun buffer l res h => bloom_check_state b buffer l res h,
    bloom_check_congr b buf1 buf2 len h1 h2 heq, ?_⟩
  intro s hs hwf
  subst hs
  exact bloom_check_any s (some buf1) len hwf (fun buf hb => by cases hb; exact h1)

/-- Witness of C15: the filter holding the buffer of twenty `0x01`, checked through that
buffer and through a longer buffer with the same first twenty bytes. -/
theorem bloom_check_read_only_witness :
    (20 : Int) ≤ (bufOnes.length : Int) ∧ (20 : Int) ≤ ((bufOnes ++ [7, 7]).length : Int) ∧
    readBytes bufOnes 20 = readBytes (bufOnes ++ [7, 7]) 20 ∧
    bloom_check (some { filterOneMilli with bf := some [7, 127] }) (some bufOnes) 20 =
      some (1, some { filterOneMilli with bf := some [7, 127] }) ∧
    bloom_check (some { filterOneMilli with bf := some [7, 127] }) (some bufOnes) 20 =
      bloom_check (some { filterOneMilli with bf := some [7, 127] })
        (some (bufOnes ++ [7, 7])) 20 :=
  ⟨by decide, by decide, by decide, by rfl,
    (bloom_check_read_only (some { filterOneMilli with bf := some [7, 127] }) bufOnes
      (bufOnes ++ [7, 7]) 20 (by decide) (by decide) (by decide)).2.1⟩

/-- C16 — index safety: on a filter with `bits ≥ 1` (a `long long`) and
`bytes = ceil(bits / 8)`, the modulus of `nth_hash` is not zero, the index it computes for any
hashes and any round is below `bits` and its byte index below `bytes`, so `SETBIT` and `GETBIT`
stay inside a bit field of `bytes` bytes, and `bloom_add` and `bloom_check` run without
undefined behaviour. -/
theorem nth_hash_in_bounds (s : bloom) (h1 : 1 ≤ s.bits) (h2 : s.bits < 2 ^ 63)
    (hbytes : s.bytes = (s.bits + 7) / 8) (hash_a hash_b i : Nat) :
    toU64 s.bits ≠ 0 ∧
    (∃ n, nth_hash (i : Int) hash_a hash_b (toU64 s.bits) = some n ∧
      (n : Int) < s.bits ∧ ((n / 8 : Nat) : Int) < s.bytes ∧
      ∀ bf : List UChar, (bf.length : Int) = s.bytes →
        (∃ bf1, SETBIT bf n = some bf1 ∧ bf1.length = bf.length) ∧
        ∃ v, GETBIT bf n = some v) ∧
    ∀ (bf buf : List UChar) (len : Int), s.bf = some bf → (bf.length : Int) = s.bytes →
      len ≤ (buf.length : Int) →
      (∃ res, bloom_add (some s) (some buf) len = some res) ∧
      ∃ res, bloom_check (some s) (some buf) len = some res := by
  have h64 : s.bits < 2 ^ 64 := by omega
  refine ⟨?_, ?_, ?_⟩
  · unfold toU64
    rw [Int.emod_eq_of_lt (by omega) h64]
    omega
  · have hidx := bitIndex_lt hash_a hash_b s.bits i h1
    refine ⟨_, nth_hash_eq i hash_a hash_b s.bits h1 h64, hidx, by omega, fun bf hbf => ?_⟩
    have hin : bitIndex hash_a hash_b s.bits.toNat i / 8 < bf.length := by omega
    obtain ⟨bf1, hset, hl, _⟩ := SETBIT_spec bf _ hin
    obtain ⟨v, hget, _⟩ := GETBIT_spec bf _ hin
    exact ⟨⟨bf1, hset, hl⟩, ⟨v, hget⟩⟩
  · intro bf buf len hbf hlen hbuf
    have hle : s.bits ≤ 8 * (bf.length : Int) := by omega
    by_cases hpos : len ≤ 0
    · exact ⟨⟨_, bloom_add_badArgs (some s) (some buf) len (Or.inr (Or.inr (Or.inr hpos)))⟩,
        ⟨_, bloom_check_badArgs (some s) (some buf) len (Or.inr (Or.inr (Or.inr hpos)))⟩⟩
    · obtain ⟨bf1, hloop, _, _⟩ :=
        bloom_add_loop_spec (HashA (readBytes buf len)) (HashB (readBytes buf len)) s.bits
          h1 h64 s.hashes.toNat 0 bf hle
      have h0 : ((0 : Nat) : Int) = 0 := rfl
      rw [h0] at hloop
      refine ⟨⟨(0, some { s with bf := some bf1 }), ?_⟩, ?_⟩
      · unfold bloom_add
        simp only [hbf, if_neg hpos, djb2_hash_eq buf len hbuf, sdbm_hash_eq buf len hbuf,
          hloop]
      · rcases bloom_check_loop_spec (HashA (readBytes buf len)) (HashB (readBytes buf len))
            s.bits h1 h64 bf hle s.hashes.toNat 0 with ⟨h, _⟩ | ⟨h, _⟩
        · rw [h0] at h
          refine ⟨(1, some s), ?_⟩
          unfold bloom_check
          simp only [hbf, if_neg hpos, djb2_hash_eq buf len hbuf, sdbm_hash_eq buf len hbuf, h]
        · rw [h0] at h
          refine ⟨(0, some s), ?_⟩
          unfold bloom_check
          simp only [hbf, if_neg hpos, djb2_hash_eq buf len hbuf, sdbm_hash_eq buf len hbuf, h]

/-- Witness of C16: the filter of 15 bits in 2 bytes, the hashes of the buffer of twenty
`0x01` and round 10, whose index is 2. -/
theorem nth_hash_in_bounds_witness :
    (1 : Int) ≤ filterOneMilli.bits ∧ filterOneMilli.bits < 2 ^ 63 ∧
    filterOneMilli.bytes = (filterOneMilli.bits + 7) / 8 ∧
    nth_hash 10 18336716229799436633 189351861784437376 (toU64 filterOneMilli.bits) = some 2 ∧
    toU64 filterOneMilli.bits ≠ 0 ∧
    ∃ n, nth_hash ((10 : Nat) : Int) 18336716229799436633 189351861784437376
        (toU64 filterOneMilli.bits) = some n ∧
      (n : Int) < filterOneMilli.bits ∧ ((n / 8 : Nat) : Int) < filterOneMilli.bytes ∧
      ∀ bf : List UChar, (bf.length : Int) = filterOneMilli.bytes →
        (∃ bf1, SETBIT bf n = some bf1 ∧ bf1.length = bf.length) ∧
        ∃ v, GETBIT bf n = some v :=
  ⟨by decide, by decide, by decide, by rfl,
    (nth_hash_in_bounds filterOneMilli (by decide) (by decide) (by decide)
      18336716229799436633 189351861784437376 10).1,
    (nth_hash_in_bounds filterOneMilli (by decide) (by decide) (by decide)
      18336716229799436633 189351861784437376 10).2.1⟩

/-- C17 — a freshly initialised filter is empty: straight after a `bloom_init` that returned
0, `bloom_check` returns 0, definitely-absent, for every non-empty buffer. The floating-point
sizing is assumed to give no negative count (`Libm.inRange`). -/
theorem bloom_check_fresh (fp : Libm) (hfp : fp.inRange) (allocOk : Bool) (b0 : Option bloom)
    (entries : Int) (error : Double)
    (hret : (bloom_init fp allocOk b0 entries error).1 = 0)
    (buf : List UChar) (len : Int) (hlen : 0 < len) (hbuf : len ≤ (buf.length : Int)) :
    ∃ s, (bloom_init fp allocOk b0 entries error).2 = some s ∧
      bloom_check (some s) (some buf) len = some (0, some s) := by
  obtain ⟨s, hs, hwf, hzero⟩ := bloom_init_wf fp hfp allocOk b0 entries error hret
  refine ⟨s, hs, ?_⟩
  obtain ⟨bf, hbf, ⟨_, hall⟩ | ⟨h0, _⟩⟩ := bloom_check_spec s buf len hwf hlen hbuf
  · exfalso
    rw [hzero] at hbf
    cases hbf
    have hpos : 0 < s.hashes.toNat := by
      have := hwf.2.2.2.1
      omega
    have hset := hall 0 hpos
    rw [bitIsSet_zeros] at hset
    exact Bool.noConfusion hset
  · exact h0

/-- Witness of C17: one entry at the error rate 0.001 on a zeroed struct, then the buffer of
twenty `0x01`. -/
theorem bloom_check_fresh_witness :
    libmOneMilli.inRange ∧
    (bloom_init libmOneMilli true (some zeroBloom) 1 Double.milli).1 = 0 ∧
    ∃ s, (bloom_init libmOneMilli true (some zeroBloom) 1 Double.milli).2 = some s ∧
      bloom_check (some s) (some bufOnes) 20 = some (0, some s) :=
  ⟨libmOneMilli_inRange, by decide,
    bloom_check_fresh libmOneMilli libmOneMilli_inRange true (some zeroBloom) 1 Double.milli
      (by decide) bufOnes 20 (by decide) (by decide)⟩

theorem bloom_add_twice (s : bloom) (a b : List UChar) (la lb : Int) (hwf : s.wf)
    (hla : 0 < la) (ha : la ≤ (a.length : Int)) (hlb : 0 < lb) (hb : lb ≤ (b.length : Int)) :
    ∃ bf bfa bfab, s.bf = some bf ∧ bfab.length = bf.length ∧
      bloom_add (some s) (some a) la = some (0, some { s with bf := some bfa }) ∧
      bloom_add_seq (some s) [(some a, la), (some b, lb)]
        = some (some { s with bf := some bfab }) ∧
      ∀ j, bitIsSet bfab j = true ↔
        ((bitIsSet bf j = true ∨ ∃ t, t < s.hashes.toNat ∧
            j = bitIndex (HashA (readBytes a la)) (HashB (readBytes a la)) s.bits.toNat t) ∨
          ∃ t, t < s.hashes.toNat ∧
            j = bitIndex (HashA (readBytes b lb)) (HashB (readBytes b lb)) s.bits.toNat t) := by
  obtain ⟨bf, bfa, hbf, hadd, hl, hbits⟩ := bloom_add_spec s a la hwf hla ha
  have hwf1 := wf_set_bf s bf bfa hwf hbf hl
  obtain ⟨bf1, bfab, hbf1, hadd2, hl2, hbits2⟩ :=
    bloom_add_spec { s with bf := some bfa } b lb hwf1 hlb hb
  cases hbf1
  refine ⟨bf, bfa, bfab, hbf, by rw [hl2, hl], hadd, ?_, fun j => ?_⟩
  · simp only [bloom_add_seq, hadd, hadd2]
  · rw [hbits2 j, hbits j]

/-- C18 — `bloom_add` is idempotent and order-independent on an initialised filter: adding a
buffer twice leaves the same filter as adding it once, and adding `a` then `b` leaves the same
filter as adding `b` then `a`. -/
theorem bloom_add_idempotent_commutes (s : bloom) (a b : List UChar) (la lb : Int)
    (hwf : s.wf) (hla : 0 < la) (ha : la ≤ (a.length : Int)) (hlb : 0 < lb)
    (hb : lb ≤ (b.length : Int)) :
    (∃ s1, bloom_add_seq (some s) [(some a, la)] = some (some s1) ∧
      bloom_add_seq (some s) [(some a, la), (some a, la)] = some (some s1)) ∧
    (∃ s2, bloom_add_seq (some s) [(some a, la), (some b, lb)] = some (some s2) ∧
      bloom_add_seq (some s) [(some b, lb), (some a, la)] = some (some s2)) := by
  constructor
  · obtain ⟨bf, bfa, hbf, hadd, hl, hbits⟩ := bloom_add_spec s a la hwf hla ha
    obtain ⟨bf0, bfa0, bfaa, hbf0, hlaa, hadd0, hseq, hbitsaa⟩ :=
      bloom_add_twice s a a la la hwf hla ha hla ha
    rw [hbf] at hbf0
    cases hbf0
    have heq : bfaa = bfa := by
      apply bf_ext bfa bfaa (by rw [hlaa, hl])
      intro j
      apply bool_eq_of_iff
      rw [hbitsaa j, hbits j]
      constructor
      · rintro ((h | h) | h)
        · exact Or.inl h
        · exact Or.inr h
        · exact Or.inr h
      · exact fun h => Or.inl h
    refine ⟨{ s with bf := some bfa }, ?_, ?_⟩
    · simp only [bloom_add_seq, hadd]
    · rw [hseq, heq]
  · obtain ⟨bf, _, bfab, hbf, hlab, _, hseqab, hbitsab⟩ :=
      bloom_add_twice s a b la lb hwf hla ha hlb hb
    obtain ⟨bf0, _, bfba, hbf0, hlba, _, hseqba, hbitsba⟩ :=
      bloom_add_twice s b a lb la hwf hlb hb hla ha
    rw [hbf] at hbf0
    cases hbf0
    have heq : bfba = bfab := by
      apply bf_ext bfab bfba (by rw [hlba, hlab])
      intro j
      apply bool_eq_of_iff
      rw [hbitsba j, hbitsab j]
      constructor
      · rintro ((h | h) | h)
        · exact Or.inl (Or.inl h)
        · exact Or.inr h
        · exact Or.inl (Or.inr h)
      · rintro ((h | h) | h)
        · exact Or.inl (Or.inl h)
        · exact Or.inr h
        · exact Or.inl (Or.inr h)
    exact ⟨{ s with bf := some bfab }, hseqab, by rw [hseqba, heq]⟩

/-- Witness of C18: the empty filter of one entry at error 0.001, the buffer of twenty `0x01`
and the buffer of twenty `0x02`. -/
theorem bloom_add_idempotent_commutes_witness :
    filterOneMilli.wf ∧
    bloom_add_seq (some filterOneMilli) [(some bufOnes, 20), (some (List.replicate 20 2), 20)]
      = some (some { filterOneMilli with bf := some [215, 127] }) ∧
    (∃ s1, bloom_add_seq (some filterOneMilli) [(some bufOnes, 20)] = some (some s1) ∧
      bloom_add_seq (some filterOneMilli) [(some bufOnes, 20), (some bufOnes, 20)]
        = some (some s1)) ∧
    (∃ s2, bloom_add_seq (some filterOneMilli)
        [(some bufOnes, 20), (some (List.replicate 20 2), 20)] = some (some s2) ∧
      bloom_add_seq (some filterOneMilli)
        [(some (List.replicate 20 2), 20), (some bufOnes, 20)] = some (some s2)) :=
  ⟨by decide, by rfl,
    bloom_add_idempotent_commutes filterOneMilli bufOnes (List.replicate 20 2) 20 20
      (by decide) (by decide) (by decide) (by decide) (by decide)⟩

/-- C19 — full reset: `bloom_free` leaves any filter with no bit field and with `entries`,
`error`, `bits`, `bytes` and `hashes` zero; a second `bloom_free` changes nothing; and after it
every `bloom_add` and every `bloom_check` returns the error value -1 and leaves the filter
as it is. On a null filter `bloom_free` does nothing and both calls return -1 as well. -/
theorem bloom_free_resets (s : bloom) (buffer : Option (List UChar)) (len : Int) :
    bloom_free (some s) =
      some { entries := 0, error := Double.zero, bits := 0, bytes := 0, hashes := 0,
             bf := none } ∧
    bloom_free (bloom_free (some s)) = bloom_free (some s) ∧
    bloom_add (bloom_free (some s)) buffer len = some (-1, bloom_free (some s)) ∧
    bloom_check (bloom_free (some s)) buffer len = some (-1, bloom_free (some s)) ∧
    bloom_free none = none ∧
    bloom_add (bloom_free none) buffer len = some (-1, none) ∧
    bloom_check (bloom_free none) buffer len = some (-1, none) := by
  have hbad : badArgs (bloom_free (some s)) buffer len := Or.inr (Or.inl ⟨_, rfl, rfl⟩)
  have hnull : badArgs (bloom_free none) buffer len := Or.inl rfl
  exact ⟨rfl, rfl, bloom_add_badArgs _ buffer len hbad, bloom_check_badArgs _ buffer len hbad,
    rfl, bloom_add_badArgs _ buffer len hnull, bloom_check_badArgs _ buffer len hnull⟩

/-! ## Lemmas on the double arithmetic of the sizing -/

set_option maxRecDepth 100000

theorem round_notNeg (n : Int) (d : Nat) (e : Int) (h : 0 ≤ n) :
    (Double.round n d e).notNeg = true := by
  have hn : decide (n < 0) = false := decide_eq_false (not_lt.mpr h)
  unfold Double.round
  split
  · rfl
  · rw [hn]
    unfold Double.pack
    split
    · rfl
    · simp [Double.notNeg]

theorem round_notPos (n : Int) (d : Nat) (e : Int) (h : n ≤ 0) :
    (Double.round n d e).notPos = true := by
  unfold Double.round
  split
  · rfl
  · rename_i h0
    have hn : decide (n < 0) = true :=
      decide_eq_true (lt_of_le_of_ne h (fun hz => h0 (Or.inl hz)))
    rw [hn]
    unfold Double.pack
    split
    · rfl
    · simp [Double.notPos]

theorem mul_notPos_notPos (x y : Double) (hx : x.notPos = true) (hy : y.notPos = true) :
    (Double.mul x y).notNeg = true := by
  cases x <;> cases y <;> simp_all [Double.notPos, Double.notNeg, Double.mul]
  · exact round_notNeg _ _ _ (Int.mul_nonneg_of_nonpos_of_nonpos hx hy)
  all_goals split_ifs <;> first | rfl | omega

theorem mul_notNeg_notNeg (x y : Double) (hx : x.notNeg = true) (hy : y.notNeg = true) :
    (Double.mul x y).notNeg = true := by
  cases x <;> cases y <;> simp_all [Double.notPos, Double.notNeg, Double.mul]
  · exact round_notNeg _ _ _ (Int.mul_nonneg hx hy)
  all_goals split_ifs <;> first | rfl | omega

theorem negOne_mul_notPos (x : Double) (hx : x.notNeg = true) :
    (Double.mul Double.negOne x).notPos = true := by
  cases x <;> simp_all [Double.notPos, Double.notNeg, Double.mul, Double.negOne]
  exact round_notPos _ _ _ (by omega)

theorem div_notNeg (x y : Double) (hx : x.notNeg = true) (hy : y.notNeg = true) :
    (Double.div x y).notNeg = true := by
  cases x <;> cases y <;> simp_all [Double.notPos, Double.notNeg, Double.div]
  rename_i m1 e1 m2 e2
  split_ifs
  · rfl
  · rfl
  · omega
  · exact round_notNeg _ _ _ hx
  · omega

theorem ceil_notNeg (x : Double) (hx : x.notNeg = true) : (Double.ceil x).notNeg = true := by
  cases x with
  | fin m e =>
    simp only [Double.notNeg, decide_eq_true_eq] at hx
    simp only [Double.ceil]
    split_ifs
    · simpa [Double.notNeg] using hx
    · simp only [Double.notNeg, decide_eq_true_eq]
      have hpos : (0 : Int) < 2 ^ (-e).toNat := by positivity
      have hdiv : (-m) / 2 ^ (-e).toNat ≤ 0 :=
        Int.ediv_le_of_le_mul hpos (by omega)
      omega
  | posInf => rfl
  | negInf => simp [Double.notNeg] at hx
  | nan => rfl

theorem toInt_nonneg (x : Double) (hx : x.notNeg = true) : 0 ≤ Double.toInt x := by
  cases x with
  | fin m e =>
    simp only [Double.notNeg, decide_eq_true_eq] at hx
    simp only [Double.toInt]
    split_ifs
    · positivity
    · exact Int.tdiv_nonneg hx (by positivity)
  | posInf => simp [Double.toInt]
  | negInf => simp [Double.notNeg] at hx
  | nan => simp [Double.toInt]

theorem ofInt_notNeg (n : Int) (h : 0 ≤ n) : (Double.ofInt n).notNeg = true :=
  round_notNeg n 1 0 h

theorem bloom_init_valid (fp : Libm) (allocOk : Bool) (s : bloom) (entries : Int)
    (error : Double) (hn : 0 < entries) (hle : Double.le error Double.zero = false)
    (hge : Double.ge error Double.one = false) :
    bloom_init fp allocOk (some s) entries error =
      bloom_init_alloc allocOk
        { s with
          entries := entries
          error := error
          bits := if fp.bitsOf entries error = 0 then 1 else fp.bitsOf entries error
          hashes :=
            if fp.hashesOf (if fp.bitsOf entries error = 0 then 1
                else fp.bitsOf entries error) entries = 0 then 1
            else fp.hashesOf (if fp.bitsOf entries error = 0 then 1
                else fp.bitsOf entries error) entries } := by
  have hpos : ¬ (entries ≤ 0) := by omega
  simp only [bloom_init, hle, hge, decide_eq_false hpos, Bool.or_self, Bool.false_eq_true,
    if_false]

theorem clamp_eq_max (x : Int) (hx : 0 ≤ x) : (if x = 0 then 1 else x) = max 1 x := by
  split
  · rename_i h
    rw [h]
    rfl
  · rw [max_eq_right (by omega)]

theorem log_two_series :
    |(∑ i ∈ Finset.range 64, ((2 : ℝ)⁻¹) ^ (i + 1) / ((i : ℝ) + 1)) - Real.log 2|
      ≤ 1 / 2 ^ 64 := by
  have t : |(2⁻¹ : ℝ)| = 2⁻¹ := abs_of_pos (by norm_num)
  have z := Real.abs_log_sub_add_sum_range_le (show |(2⁻¹ : ℝ)| < 1 by rw [t]; norm_num) 64
  have h1 : (1 : ℝ) - 2⁻¹ = 2⁻¹ := by norm_num
  rw [t, h1, Real.log_inv, ← sub_eq_add_neg] at z
  have h2 : ((2 : ℝ)⁻¹) ^ (64 + 1) / 2⁻¹ = 1 / 2 ^ 64 := by norm_num
  rw [h2] at z
  exact z

theorem log_two_lt_ratio : Real.log 2 < 111975815 / 161546953 := by
  have z := (abs_le.mp log_two_series).1
  have hs : (∑ i ∈ Finset.range 64, ((2 : ℝ)⁻¹) ^ (i + 1) / ((i : ℝ) + 1)) + 1 / 2 ^ 64
      < 111975815 / 161546953 := by
    simp only [Finset.sum_range_succ, Finset.sum_range_zero]
    norm_num
  linarith

theorem log_two_gt_ratio : (111975815 : ℝ) / 161546954 < Real.log 2 := by
  have h := Real.log_two_gt_d9
  have hn : (111975815 : ℝ) / 161546954 < 0.6931471803 := by norm_num
  linarith

theorem log_two_nearest :
    |(6243314768165359 : ℝ) / 2 ^ 53 - Real.log 2| < 1 / 2 ^ 54 := by
  have z := abs_le.mp log_two_series
  have hs1 : (6243314768165359 : ℝ) / 2 ^ 53 - 1 / 2 ^ 54 + 1 / 2 ^ 64 <
      (∑ i ∈ Finset.range 64, ((2 : ℝ)⁻¹) ^ (i + 1) / ((i : ℝ) + 1)) := by
    simp only [Finset.sum_range_succ, Finset.sum_range_zero]
    norm_num
  have hs2 : (∑ i ∈ Finset.range 64, ((2 : ℝ)⁻¹) ^ (i + 1) / ((i : ℝ) + 1)) + 1 / 2 ^ 64
      < (6243314768165359 : ℝ) / 2 ^ 53 + 1 / 2 ^ 54 := by
    simp only [Finset.sum_range_succ, Finset.sum_range_zero]
    norm_num
  rw [abs_lt]
  constructor <;> linarith [z.1, z.2]

theorem exact_bits_half :
    max 1 ⌈-(111975815 : ℝ) * Real.log (1 / 2) / (Real.log 2) ^ 2⌉ = 161546954 := by
  have hpos : 0 < Real.log 2 := Real.log_pos (by norm_num)
  have hval : -(111975815 : ℝ) * Real.log (1 / 2) / (Real.log 2) ^ 2
      = 111975815 / Real.log 2 := by
    rw [one_div, Real.log_inv]
    field_simp
    ring
  rw [hval]
  have hceil : ⌈(111975815 : ℝ) / Real.log 2⌉ = 161546954 := by
    rw [Int.ceil_eq_iff]
    constructor
    · have h := log_two_lt_ratio
      rw [lt_div_iff₀ hpos]
      rw [lt_div_iff₀ (by norm_num)] at h
      push_cast
      linarith
    · have h := log_two_gt_ratio
      rw [div_le_iff₀ hpos]
      rw [div_lt_iff₀ (by norm_num)] at h
      push_cast
      linarith
  rw [hceil]
  rfl

/-! ## The sizing of `bloom_init` -/

/-- C5, as stated, fails: in double arithmetic, with the logarithms of 2.0 and 0.5 rounded to
the nearest double, `entries = 111975815` and `error = 0.5` give `bits = 161546953`, while the
exact value `max(1, ceil(-n * ln(p) / (ln 2)^2))` is 161546954. -/
theorem bloom_init_sizing_inexact :
    (bloom_init (ieeeLibm logTable) true (some zeroBloom) 111975815 Double.half).1 = 0 ∧
    (bloom_init (ieeeLibm logTable) true (some zeroBloom) 111975815 Double.half).2.map
      bloom.bits = some 161546953 ∧
    max 1 ⌈-(111975815 : ℝ) * Real.log (1 / 2) / (Real.log 2) ^ 2⌉ = 161546954 ∧
    logTable Double.two = Double.fin 6243314768165359 (-53) ∧
    logTable Double.half = Double.fin (-6243314768165359) (-53) ∧
    |(6243314768165359 : ℝ) / 2 ^ 53 - Real.log 2| < 1 / 2 ^ 54 ∧
    |-(6243314768165359 : ℝ) / 2 ^ 53 - Real.log (1 / 2)| < 1 / 2 ^ 54 := by
  refine ⟨by decide, by decide, exact_bits_half, by decide, by decide, log_two_nearest, ?_⟩
  rw [one_div, Real.log_inv, neg_div, ← neg_sub', abs_neg]
  exact log_two_nearest

/-- C5, amended — the sizing follows the stated formulas in IEEE-754 double arithmetic: for
`entries > 0` and `0 < error < 1`, with a `log` that is not positive at `error` and not
negative at 2.0, a `bloom_init` that returns 0 sets `bits` to the maximum of 1 and the ceiling
of the rounded quotient of the rounded products, `hashes` to the maximum of 1 and the ceiling
of the rounded product of the rounded quotient `bits / entries` with `log(2.0)`, and `bytes` to
`ceil(bits / 8)` exactly. -/
theorem bloom_init_sizing (log : Double → Double) (allocOk : Bool) (b0 : bloom)
    (entries : Int) (error : Double) (hn : 0 < entries)
    (hle : Double.le error Double.zero = false) (hge : Double.ge error Double.one = false)
    (hlogp : (log error).notPos = true) (hlog2 : (log Double.two).notNeg = true)
    (hret : (bloom_init (ieeeLibm log) allocOk (some b0) entries error).1 = 0) :
    ∃ s, (bloom_init (ieeeLibm log) allocOk (some b0) entries error).2 = some s ∧
      s.bits = max 1 (Double.toInt (Double.ceil
        (Double.div (Double.mul (Double.mul Double.negOne (Double.ofInt entries)) (log error))
          (Double.mul (log Double.two) (log Double.two))))) ∧
      s.hashes = max 1 (Double.toInt (Double.ceil
        (Double.mul (Double.div (Double.ofInt s.bits) (Double.ofInt entries))
          (log Double.two)))) ∧
      1 ≤ s.bits ∧ 1 ≤ s.hashes ∧
      8 * (s.bytes - 1) < s.bits ∧ s.bits ≤ 8 * s.bytes := by
  have hc : 0 ≤ (ieeeLibm log).bitsOf entries error :=
    toInt_nonneg _ (ceil_notNeg _ (div_notNeg _ _
      (mul_notPos_notPos _ _ (negOne_mul_notPos _ (ofInt_notNeg entries (le_of_lt hn))) hlogp)
      (mul_notNeg_notNeg _ _ hlog2 hlog2)))
  have hbits : 1 ≤ (if (ieeeLibm log).bitsOf entries error = 0 then 1
      else (ieeeLibm log).bitsOf entries error) := clamp_pos _ hc
  have hh : 0 ≤ (ieeeLibm log).hashesOf (if (ieeeLibm log).bitsOf entries error = 0 then 1
      else (ieeeLibm log).bitsOf entries error) entries :=
    toInt_nonneg _ (ceil_notNeg _ (mul_notNeg_notNeg _ _
      (div_notNeg _ _ (ofInt_notNeg _ (by omega)) (ofInt_notNeg entries (le_of_lt hn)))
      hlog2))
  rw [bloom_init_valid (ieeeLibm log) allocOk b0 entries error hn hle hge] at hret ⊢
  cases allocOk with
  | false => simp [bloom_init_alloc] at hret
  | true =>
    refine ⟨_, rfl, clamp_eq_max _ hc, clamp_eq_max _ hh, hbits, clamp_pos _ hh, ?_⟩
    have hdiv : ∀ x : Int, 1 ≤ x →
        8 * (Int.tdiv (x + (CHAR_BIT : Int) - 1) (CHAR_BIT : Int) - 1) < x ∧
        x ≤ 8 * Int.tdiv (x + (CHAR_BIT : Int) - 1) (CHAR_BIT : Int) := by
      intro x hx
      have h : x + (CHAR_BIT : Int) - 1 = x + 7 := by
        simp only [CHAR_BIT]
        omega
      have h8 : ((CHAR_BIT : Nat) : Int) = 8 := rfl
      rw [h, Int.tdiv_eq_ediv (by omega) (by simp [CHAR_BIT]), h8]
      omega
    exact hdiv _ hbits

/-- Witness of C5, amended: `entries = 1000`, `error = 0.001` on a zeroed struct give
`bits = 14378`, `hashes = 10`, `bytes = 1798`. -/
theorem bloom_init_sizing_witness :
    (logTable Double.milli).notPos = true ∧ (logTable Double.two).notNeg = true ∧
    (bloom_init (ieeeLibm logTable) true (some zeroBloom) 1000 Double.milli).1 = 0 ∧
    ∃ s, (bloom_init (ieeeLibm logTable) true (some zeroBloom) 1000 Double.milli).2 = some s ∧
      s.bits = 14378 ∧ s.hashes = 10 ∧ s.bytes = 1798 :=
  ⟨by decide, by decide, by decide,
    (bloom_init_sizing logTable true zeroBloom 1000 Double.milli (by decide) (by decide)
      (by decide) (by decide) (by decide) (by decide)).elim
      (fun s h => ⟨s, h.1, by
        have hb : s.bits = 14378 := by
          rw [h.2.1]
          decide
        have hh : s.hashes = 10 := by
          rw [h.2.2.1, hb]
          decide
        have h1 := h.2.2.2.2.2.1
        have h2 := h.2.2.2.2.2.2
        exact ⟨hb, hh, by omega⟩⟩)⟩
